import Mathlib

/-!
Verification development for the `mht2html` converter (src/mht2html.py).

The program converts a multipart MHT container into a standalone HTML file
plus a directory of extracted resources.  This file gives a shallow
embedding of the program over `Str := List Char` (Python `str` values are
modelled as their character lists) and proves the frozen claims about it.

Modelling conventions:
* Python strings are `Str := List Char`; `str` injects Lean string literals.
* Python `dict` values are association lists in insertion order with
  last-write-wins assignment (`dictInsert` / `dictGet`).
* Filesystem writes are recorded as an explicit `FsOp` effect list; the
  filesystem itself is assumed to accept every write (per-resource
  filesystem errors are environment-dependent and are not modelled, the
  only modelled per-resource failure is base64 decoding).
* The BeautifulSoup document tree is the inductive `Node` type; the HTML
  parser and serializer themselves are external collaborators and are
  passed to the pipeline as function parameters.
* Functions that Python implements by regular expressions are modelled by
  equivalent explicit scans; the multipart boundary is treated as a literal
  token (boundaries containing regex metacharacters are out of scope).
-/

namespace Mht

abbrev Str := List Char

/-- Inject a Lean string literal into the `Str` model. -/
def str (s : String) : Str := s.toList

/-- Python `str.strip()`: drop whitespace from both ends. -/
def pyStrip (s : Str) : Str :=
  ((s.dropWhile Char.isWhitespace).reverse.dropWhile Char.isWhitespace).reverse

/-- Python `str.lower()` (ASCII case folding, which covers header names). -/
def pyLower (s : Str) : Str := s.map Char.toLower

/-- Python `s.split(sep)` for a one-character separator `c`.
`splitChar c []` is `[[]]`, matching `"".split(sep) == [""]`. -/
def splitChar (c : Char) : Str → List Str
  | [] => [[]]
  | a :: l =>
    if a = c then [] :: splitChar c l
    else
      match splitChar c l with
      | [] => [[a]]
      | s :: ss => (a :: s) :: ss

/-- Python `s.split(c, 1)` guarded by `c in s`: `some (before, after)` when
`c` occurs in `s` (split at the first occurrence), `none` otherwise. -/
def splitOnce (c : Char) : Str → Option (Str × Str)
  | [] => none
  | a :: l =>
    if a = c then some ([], l)
    else (splitOnce c l).map (fun p => (a :: p.1, p.2))

/-- Python `sep.join(parts)`. -/
def strIntercalate (sep : Str) : List Str → Str
  | [] => []
  | [x] => x
  | x :: xs => x ++ sep ++ strIntercalate sep xs

/-- Python `needle in hay` for strings (substring test). -/
def containsStr (needle : Str) : Str → Bool
  | [] => needle.isEmpty
  | a :: l => needle.isPrefixOf (a :: l) || containsStr needle l

/-- Last element of a `split` result, i.e. Python `s.split(c)[-1]`
(`splitChar` never returns `[]`, so the default is never taken). -/
def lastTok (c : Char) (s : Str) : Str := (splitChar c s).getLastD []

/-- POSIX `os.path.basename`: everything after the last `/`
(CPython computes `p[p.rfind(sep) + 1 :]`). -/
def basename (p : Str) : Str := (p.reverse.takeWhile (fun c => c ≠ '/')).reverse

/-- The root part of POSIX `os.path.splitext` on a path without separators:
drop the suffix starting at the last dot, unless every character before that
dot is itself a dot (so `.bashrc` keeps its name), following the
`posixpath._splitext` loop. -/
def splitextRoot (s : Str) : Str :=
  match s.reverse.dropWhile (fun c => c ≠ '.') with
  | [] => s
  | _ :: pre => if pre.reverse.any (fun c => c ≠ '.') then pre.reverse else s

/-- POSIX `os.path.dirname`: the prefix up to the last `/`, with trailing
slashes stripped unless the result consists only of slashes. -/
def dirname (p : Str) : Str :=
  let head := (p.reverse.dropWhile (fun c => c ≠ '/')).reverse
  if head.isEmpty || head.all (fun c => c = '/') then head
  else (head.reverse.dropWhile (fun c => c = '/')).reverse

/-- POSIX `os.path.join` for two components. -/
def pathJoin (a b : Str) : Str :=
  match b with
  | '/' :: _ => b
  | _ =>
    if a.isEmpty then b
    else if a.getLastD ' ' = '/' then a ++ b
    else a ++ '/' :: b

/-- Path components for `relpath`: `/`-separated pieces that are neither
empty nor `.` (the normalisation POSIX `relpath` applies to its inputs). -/
def pathComps (p : Str) : List Str :=
  (splitChar '/' p).filter (fun c => decide (c ≠ [] ∧ c ≠ str "."))

/-- Drop the shared leading components of two component lists. -/
def dropCommon : List Str → List Str → List Str × List Str
  | a :: as, b :: bs => if a = b then dropCommon as bs else (a :: as, b :: bs)
  | as, bs => (as, bs)

/-- POSIX `os.path.relpath path start` for `..`-free relative inputs that
are resolved against the same working directory (the only way the program
uses it: both arguments are built from the output path). -/
def relpath (path start : Str) : Str :=
  let (ps, ss) := dropCommon (pathComps path) (pathComps start)
  let rel := ss.map (fun _ => str "..") ++ ps
  if rel.isEmpty then str "." else strIntercalate (str "/") rel

/-- Decimal digit character. -/
def digitChar (d : Nat) : Char := Char.ofNat (48 + d)

/-- Decimal printing with explicit fuel (structural recursion keeps the
function kernel-reducible); `natToStr` supplies enough fuel. -/
def natToStrF : Nat → Nat → Str
  | 0, _ => []
  | fuel + 1, n =>
    if n < 10 then [digitChar n]
    else natToStrF fuel (n / 10) ++ [digitChar (n % 10)]

/-- Python `str(n)` for a natural number: decimal digits. -/
def natToStr (n : Nat) : Str := natToStrF (n + 1) n

/-- Value of a base64 alphabet character. -/
def b64val (c : Char) : Option Nat :=
  if 'A' ≤ c ∧ c ≤ 'Z' then some (c.toNat - 65)
  else if 'a' ≤ c ∧ c ≤ 'z' then some (c.toNat - 97 + 26)
  else if '0' ≤ c ∧ c ≤ '9' then some (c.toNat - 48 + 52)
  else if c = '+' then some 62
  else if c = '/' then some 63
  else none

/-- Turn a run of base64 sextets into bytes: full quadruples give three
bytes, a trailing triple two, a trailing pair one. -/
def b64bytes : List Nat → List Nat
  | a :: b :: c :: d :: rest =>
    (a * 4 + b / 16) :: ((b % 16) * 16 + c / 4) :: ((c % 4) * 64 + d) :: b64bytes rest
  | [a, b, c] => [a * 4 + b / 16, (b % 16) * 16 + c / 4]
  | [a, b] => [a * 4 + b / 16]
  | _ => []

/-- Python `base64.b64decode` (the default non-validating mode): characters
outside the alphabet are discarded, the data before the first `=` is
decoded, and incorrect padding raises — modelled as `none`. -/
def b64decode (s : Str) : Option (List Nat) :=
  let cs := s.filter (fun c => (b64val c).isSome || c = '=')
  let digits := (cs.takeWhile (fun c => c ≠ '=')).filterMap b64val
  let pad := (cs.dropWhile (fun c => c ≠ '=')).length
  if (digits.length + pad) % 4 = 0 ∧ digits.length % 4 ≠ 1 ∧ pad ≤ 2 then
    some (b64bytes digits)
  else none

/-- UTF-8 bytes of one character. -/
def utf8Bytes (c : Char) : List Nat :=
  let n := c.toNat
  if n < 128 then [n]
  else if n < 2048 then [192 + n / 64, 128 + n % 64]
  else if n < 65536 then [224 + n / 4096, 128 + (n / 64) % 64, 128 + n % 64]
  else [240 + n / 262144, 128 + (n / 4096) % 64, 128 + (n / 64) % 64, 128 + n % 64]

/-- Python `s.encode("utf-8")`. -/
def encodeUtf8 (s : Str) : List Nat := (s.map utf8Bytes).flatten

/-! ## Python dictionaries

Association lists in insertion order; assignment overwrites in place. -/

/-- Python `d[k] = v`: overwrite the entry in place if the key exists,
otherwise append a new entry. -/
def dictInsert (d : List (Str × Str)) (k v : Str) : List (Str × Str) :=
  if d.any (fun p => decide (p.1 = k)) then
    d.map (fun p => if p.1 = k then (k, v) else p)
  else d ++ [(k, v)]

/-- Python `d.get(k)`: the value of the first (unique) entry with key `k`. -/
def dictGet (d : List (Str × Str)) (k : Str) : Option Str :=
  (d.find? (fun p => decide (p.1 = k))).map (fun p => p.2)

/-! ## Header parser (`parse_headers`, src/mht2html.py lines 16-23) -/

/-- The source's `parse_headers`: split the block on newlines; each line
containing a colon contributes `line.split(":", 1)` with the key stripped
and lower-cased and the value stripped; later lines overwrite earlier ones. -/
def parse_headers (s : Str) : List (Str × Str) :=
  (splitChar '\n' s).foldl
    (fun d line =>
      match splitOnce ':' line with
      | none => d
      | some (k, v) => dictInsert d (pyLower (pyStrip k)) (pyStrip v))
    []

/-- Specification-side view of one header line: the normalised key/value
pair contributed by a line, `none` for lines without a colon. -/
def lineEntry (line : Str) : Option (Str × Str) :=
  (splitOnce ':' line).map (fun p => (pyLower (pyStrip p.1), pyStrip p.2))

/-- Specification-side view of a header block: the normalised entries of
all colon-bearing lines, in order. -/
def headerEntries (s : Str) : List (Str × Str) :=
  (splitChar '\n' s).filterMap lineEntry

/-! ## Resource extractor (`save_resource`, src/mht2html.py lines 25-61) -/

/-- A filesystem effect performed by the program. -/
inductive FsOp where
  | mkdirs (dir : Str)
  | write (path : Str) (bytes : List Nat)
deriving DecidableEq

/-- The source's `CONTENT_TYPE_MAP` constant. -/
def CONTENT_TYPE_MAP : List (Str × Str) :=
  [(str "image/jpeg", str "jpg"), (str "image/png", str "png"),
   (str "image/gif", str "gif")]

/-- The bytes `save_resource` writes: base64-decode the body when the
transfer encoding is `base64` (`none` on a decode error), otherwise the
body's UTF-8 encoding. -/
def contentBytes (data encoding : Str) : Option (List Nat) :=
  if encoding = str "base64" then b64decode data else some (encodeUtf8 data)

/-- The source's `save_resource`: derive `{base_name}.{extension}` from the
content location and content type, create the resource directory, decode
the body and write it.  Returns the `(content_location, file_path)` pair on
success and `none` on failure (the function catches every exception), plus
the filesystem effects performed; note `os.makedirs` runs before decoding,
so a decode failure still creates the directory.  The progress callback is
display-only and not modelled. -/
def save_resource (content_location content_type data encoding resource_dir : Str) :
    Option (Str × Str) × List FsOp :=
  let original_name := basename content_location
  let base_name := splitextRoot original_name
  let extension :=
    (dictGet CONTENT_TYPE_MAP content_type).getD
      (lastTok '+' (lastTok '/' content_type))
  let filename := base_name ++ str "." ++ extension
  let file_path := pathJoin resource_dir filename
  match contentBytes data encoding with
  | some content =>
    (some (content_location, file_path),
     [FsOp.mkdirs resource_dir, FsOp.write file_path content])
  | none => (none, [FsOp.mkdirs resource_dir])

/-! ## Document tree model

The parsed HTML document is a forest of nodes.  BeautifulSoup stores most
attribute values as strings and multi-valued attributes (such as `class`)
as lists; `AttrVal` covers both.  The parser and serializer themselves are
external collaborators (spec section 1) and appear only as parameters of
the pipeline. -/

inductive AttrVal where
  | s (v : Str)
  | l (vs : List Str)
deriving DecidableEq

inductive Node where
  | elem (tag : Str) (attrs : List (Str × AttrVal)) (children : List Node)
  | txt (t : Str)

/-- Attribute lookup (`tag.get(name)` / `tag[name]` read). -/
def lookupAttr (attrs : List (Str × AttrVal)) (name : Str) : Option AttrVal :=
  (attrs.find? (fun p => decide (p.1 = name))).map (fun p => p.2)

/-- Whether the attribute is present (`find_all(style=True)` membership). -/
def hasAttr (attrs : List (Str × AttrVal)) (name : Str) : Bool :=
  attrs.any (fun p => decide (p.1 = name))

/-- String value of an attribute, defaulting to `""` when absent.  A
list-valued attribute is returned as its space-join; the attributes this is
applied to (`style`, `src`, `href`) are string-valued under BeautifulSoup's
HTML parser, so that branch does not arise in practice. -/
def attrStr (attrs : List (Str × AttrVal)) (name : Str) : Str :=
  match lookupAttr attrs name with
  | some (.s v) => v
  | some (.l vs) => strIntercalate (str " ") vs
  | none => []

/-- Class list of an element (`tag.get("class", [])`; BeautifulSoup keeps
`class` multi-valued, a stray string value is read as a singleton). -/
def classList (attrs : List (Str × AttrVal)) : List Str :=
  match lookupAttr attrs (str "class") with
  | some (.l vs) => vs
  | some (.s v) => [v]
  | none => []

/-- Attribute assignment (`tag[name] = v`): overwrite in place or append. -/
def setAttr (attrs : List (Str × AttrVal)) (name : Str) (v : AttrVal) :
    List (Str × AttrVal) :=
  if attrs.any (fun p => decide (p.1 = name)) then
    attrs.map (fun p => if p.1 = name then (name, v) else p)
  else attrs ++ [(name, v)]

/-- Attribute deletion (`del tag[name]`). -/
def delAttr (attrs : List (Str × AttrVal)) (name : Str) : List (Str × AttrVal) :=
  attrs.filter (fun p => decide (p.1 ≠ name))

/-! ## Placeholder pass (`empty_msg`, src/mht2html.py lines 67-83) -/

/-- Whether a forest contains an `img` element (`div.find("img")`). -/
def hasImg : List Node → Bool
  | [] => false
  | .txt _ :: ns => hasImg ns
  | .elem tag _ cs :: ns => tag = str "img" || hasImg cs || hasImg ns

/-- Whether `get_text(strip=True)` of a forest is empty: every text
descendant strips to the empty string. -/
def textBlank : List Node → Bool
  | [] => true
  | .txt t :: ns => (pyStrip t).isEmpty && textBlank ns
  | .elem _ _ cs :: ns => textBlank cs && textBlank ns

/-- The replacement block the source builds for an empty message:
`<div style="padding-left:20px;"><font ...>[不支持导出的消息类型]</font></div>`. -/
def placeholderDiv : Node :=
  .elem (str "div") [(str "style", .s (str "padding-left:20px;"))]
    [.elem (str "font")
      [(str "style",
        .s (str "font-size:10pt;font-family:" ++ [Char.ofNat 39] ++ str "宋体"
            ++ [Char.ofNat 39] ++ str "," ++ [Char.ofNat 39] ++ str "MS Sans Serif"
            ++ [Char.ofNat 39] ++ str ",sans-serif;")),
       (str "color", .s (str "000000"))]
      [.txt (str "[不支持导出的消息类型]")]]

/-- Whether `empty_msg` replaces this element: a `div` whose `style` is
exactly `padding-left:20px;`, containing no `img` and no visible text. -/
def emptyMsgHit (tag : Str) (attrs : List (Str × AttrVal)) (cs : List Node) : Bool :=
  tag = str "div" &&
  decide (lookupAttr attrs (str "style") = some (.s (str "padding-left:20px;"))) &&
  !hasImg cs && textBlank cs

/-- The source's `empty_msg` pass: replace each matching `div` (inserting
the placeholder before it and decomposing it).  A matching `div` nested
inside a replaced one is destroyed with its parent, so replacement does not
recurse into replaced elements. -/
def empty_msg : List Node → List Node
  | [] => []
  | .txt t :: ns => .txt t :: empty_msg ns
  | .elem tag attrs cs :: ns =>
    if emptyMsgHit tag attrs cs then placeholderDiv :: empty_msg ns
    else .elem tag attrs (empty_msg cs) :: empty_msg ns

/-! ## Style-dedup pass (`process_styles`, src/mht2html.py lines 85-105) -/

/-- State threaded through the style pass: the source's `style_map`,
`css_rules` and `counter`; `assigned` is a ghost log recording, for each
processed element in document order, the style string it carried and the
class it received (the loop body's `(original_style, style_map[original_style])`). -/
structure StyleState where
  style_map : List (Str × Str)
  css_rules : List Str
  counter : Nat
  assigned : List (Str × Str)
deriving DecidableEq

/-- Generated class names: `f"i-style-{counter}"`. -/
def styleClassName (n : Nat) : Str := str "i-style-" ++ natToStr n

/-- Generated rule text: `f".{class_name} {{ {original_style} }}"`. -/
def cssRule (cls style : Str) : Str :=
  str "." ++ cls ++ str " \x7b " ++ style ++ str " \x7d"

/-- One iteration of the `process_styles` loop on an element carrying a
`style` attribute: skip blank styles, register unseen styles, append the
class and delete the inline style. -/
def styleStep (attrs : List (Str × AttrVal)) (st : StyleState) :
    List (Str × AttrVal) × StyleState :=
  if hasAttr attrs (str "style") then
    let s := pyStrip (attrStr attrs (str "style"))
    if s.isEmpty then (attrs, st)
    else
      let st1 : StyleState :=
        match dictGet st.style_map s with
        | some _ => st
        | none =>
          { st with
            style_map := st.style_map ++ [(s, styleClassName st.counter)],
            css_rules := st.css_rules ++ [cssRule (styleClassName st.counter) s],
            counter := st.counter + 1 }
      let cls := (dictGet st1.style_map s).getD []
      let attrs1 :=
        delAttr (setAttr attrs (str "class") (.l (classList attrs ++ [cls]))) (str "style")
      (attrs1, { st1 with assigned := st1.assigned ++ [(s, cls)] })
  else (attrs, st)

/-- The `find_all(style=True)` loop as a document-order traversal: mutating
one element never changes whether another carries a style attribute, so the
snapshot-then-mutate loop is equivalent to this single pre-order pass. -/
def procForest : List Node → StyleState → List Node × StyleState
  | [], st => ([], st)
  | .txt t :: ns, st =>
    let (ns1, st1) := procForest ns st
    (.txt t :: ns1, st1)
  | .elem tag attrs cs :: ns, st =>
    let (attrs1, st1) := styleStep attrs st
    let (cs1, st2) := procForest cs st1
    let (ns1, st3) := procForest ns st2
    (.elem tag attrs1 cs1 :: ns1, st3)

/-- Initial style state (`style_map = {}`, `css_rules = []`, `counter = 1`). -/
def initStyleState : StyleState := ⟨[], [], 1, []⟩

/-- The source's `process_styles`: run the pass over the whole document and
return the transformed tree with `"\n".join(css_rules)`. -/
def process_styles (soup : List Node) : List Node × Str :=
  let (soup1, st) := procForest soup initStyleState
  (soup1, strIntercalate [Char.ofNat 10] st.css_rules)

/-! ## Reference-rewrite pass (`update_references`, src/mht2html.py lines 107-122) -/

/-- The attribute the pass rewrites: `src` for `img`, `href` otherwise. -/
def refAttr (tag : Str) : Str := if tag = str "img" then str "src" else str "href"

/-- The resource-map hit for an element: `resource_map.get(tag.get(attr, ""))`.
An absent attribute looks up the empty string; a list-valued attribute is
unhashable in Python and cannot hit the map. -/
def refHit (m : List (Str × Str)) (attrs : List (Str × AttrVal)) (tag : Str) :
    Option Str :=
  match lookupAttr attrs (refAttr tag) with
  | none => dictGet m []
  | some (.s v) => dictGet m v
  | some (.l _) => none

/-- One loop iteration of `update_references` on an element's attributes:
only `img`/`link`/`script` elements are visited, and the designated
attribute is rewritten only when the walrus `resource_map.get(...)` is
truthy (a hit with a non-empty written path). -/
def update_tag_attrs (m : List (Str × Str)) (output_path : Str) (tag : Str)
    (attrs : List (Str × AttrVal)) : List (Str × AttrVal) :=
  if tag = str "img" || tag = str "link" || tag = str "script" then
    match refHit m attrs tag with
    | some rp =>
      if rp.isEmpty then attrs
      else setAttr attrs (refAttr tag) (.s (relpath rp (dirname output_path)))
    | none => attrs
  else attrs

/-- The source's `update_references`: apply `update_tag_attrs` to every
element of the document (the `find_all(["img", "link", "script"])` loop). -/
def update_references (m : List (Str × Str)) (output_path : Str) :
    List Node → List Node
  | [] => []
  | .txt t :: ns => .txt t :: update_references m output_path ns
  | .elem tag attrs cs :: ns =>
    .elem tag (update_tag_attrs m output_path tag attrs)
      (update_references m output_path cs) :: update_references m output_path ns

/-! ## Stylesheet injection (src/mht2html.py lines 201-207) -/

/-- The `<style type="text/css">` element the source builds. -/
def styleTag (css : Str) : Node :=
  .elem (str "style") [(str "type", .s (str "text/css"))] [.txt css]

/-- Whether the document contains an element with the given tag
(`soup.head` / `soup.html` truthiness: `find` searches in document order). -/
def hasTag (name : Str) : List Node → Bool
  | [] => false
  | .txt _ :: ns => hasTag name ns
  | .elem tag _ cs :: ns => tag = name || hasTag name cs || hasTag name ns

/-- Rewrite the children of the first element (in document order) carrying
the given tag; `none` when no such element exists. -/
def mapFirstTag (name : Str) (f : List Node → List Node) : List Node → Option (List Node)
  | [] => none
  | .txt t :: ns => (mapFirstTag name f ns).map (fun ns1 => Node.txt t :: ns1)
  | .elem tag attrs cs :: ns =>
    if tag = name then some (.elem tag attrs (f cs) :: ns)
    else
      match mapFirstTag name f cs with
      | some cs1 => some (.elem tag attrs cs1 :: ns)
      | none => (mapFirstTag name f ns).map (fun ns1 => Node.elem tag attrs cs :: ns1)

/-- Children of the first element (in document order) with the given tag. -/
def firstTagChildren (name : Str) : List Node → Option (List Node)
  | [] => none
  | .txt _ :: ns => firstTagChildren name ns
  | .elem tag _ cs :: ns =>
    if tag = name then some cs
    else (firstTagChildren name cs).or (firstTagChildren name ns)

/-- The stylesheet-injection step: with a non-empty stylesheet, append the
style element to `soup.head` when one exists, otherwise insert a fresh
`head` as the first child of `soup.html` and append the style element to it
(`Tag.insert` returning the inserted element).  `none` models the
`AttributeError` raised when neither `head` nor `html` exists (caught by
the surrounding `try`). -/
def insertStylesheet (css : Str) (soup : List Node) : Option (List Node) :=
  if css.isEmpty then some soup
  else
    match mapFirstTag (str "head") (fun cs => cs ++ [styleTag css]) soup with
    | some soup1 => some soup1
    | none =>
      mapFirstTag (str "html")
        (fun cs => Node.elem (str "head") [] [styleTag css] :: cs) soup

/-! ## Multipart splitter (src/mht2html.py lines 137-150) -/

/-- The search `re.search(r"boundary=\x22([^\x22]+)\x22", content)`: at the
first position where `boundary="` is followed by a non-empty quote-free
token and a closing quote, return that token. -/
def findBoundary : Str → Option Str
  | [] => none
  | c :: cs =>
    let s := c :: cs
    if (str "boundary=" ++ ['"']).isPrefixOf s then
      let rest := s.drop 10
      let tok := rest.takeWhile (fun ch => ch ≠ '"')
      if tok.isEmpty then findBoundary cs
      else if tok.length < rest.length then some tok
      else findBoundary cs
    else findBoundary cs

/-- The terminating boundary marker `--{boundary}--\n`. -/
def sepA (b : Str) : Str := str "--" ++ b ++ str "--" ++ ['\n']

/-- The ordinary boundary marker `--{boundary}\n`. -/
def sepB (b : Str) : Str := str "--" ++ b ++ ['\n']

/-- The scan behind `re.split(rf"--{boundary}(?:--)?\n", content)`: cut the
text at each leftmost non-overlapping marker, preferring the longer
`--b--\n` form (the greedy `(?:--)?`).  Structural recursion on a fuel
argument keeps the function kernel-reducible; `splitParts` supplies one
unit of fuel per character, which is enough since every step consumes at
least one character. -/
def splitPartsF (b : Str) : Nat → Str → Str → List Str
  | _, [], acc => [acc.reverse]
  | 0, s, acc => [acc.reverse ++ s]
  | fuel + 1, c :: cs, acc =>
    let s := c :: cs
    if (sepA b).isPrefixOf s then
      acc.reverse :: splitPartsF b fuel (s.drop (sepA b).length) []
    else if (sepB b).isPrefixOf s then
      acc.reverse :: splitPartsF b fuel (s.drop (sepB b).length) []
    else splitPartsF b fuel cs (c :: acc)

/-- `re.split` on the boundary marker pattern. -/
def splitParts (b s : Str) : List Str := splitPartsF b s.length s []

/-- The leading alternative of the body regex
`(?:\n\n|\r\n\r\n)(.*?)(?=\n--|$)` with `re.DOTALL`: the remainder of the
part after the leftmost blank-line separator, or `none` when there is no
blank line (in which case the whole regex fails to match). -/
def findAfterBlank : Str → Option Str
  | [] => none
  | c :: cs =>
    let s := c :: cs
    if (str "\n\n").isPrefixOf s then some (s.drop 2)
    else if (str "\r\n\r\n").isPrefixOf s then some (s.drop 4)
    else findAfterBlank cs

/-- The lazy group `(.*?)(?=\n--|$)`: extend the body until the lookahead
matches, i.e. stop right before the first `\n--`, before a trailing
newline, or at the end of input. -/
def takeBody : Str → Str
  | [] => []
  | c :: cs =>
    let s := c :: cs
    if (str "\n--").isPrefixOf s then []
    else if s = ['\n'] then []
    else c :: takeBody cs

/-- Python `part.partition("\n\n")` projected to `(before, after)`; when
the separator is absent the whole string is `before` and `after` is empty. -/
def partitionBlank : Str → Str × Str
  | [] => ([], [])
  | c :: cs =>
    let s := c :: cs
    if (str "\n\n").isPrefixOf s then ([], s.drop 2)
    else
      let (pre, post) := partitionBlank cs
      (c :: pre, post)

/-- The chosen HTML part: the first split chunk containing the literal
`Content-Type: text/html` (the source's `next(...)` generator). -/
def htmlPartSel (content : Str) : Option Str :=
  (findBoundary content).bind fun b =>
    (splitParts b content).find? (fun p => containsStr (str "Content-Type: text/html") p)

/-- The HTML body text the source extracts and parses:
`html_match.group(1).strip()`. -/
def htmlBodyOf (html_part : Str) : Option Str :=
  (findAfterBlank html_part).map (fun r => pyStrip (takeBody r))

/-- End-to-end body extraction of the splitter stage. -/
def extractedBody (content : Str) : Option Str :=
  (htmlPartSel content).bind htmlBodyOf

/-! ## Pipeline orchestrator (`MHTProcessor.process`, src/mht2html.py lines 124-220)

The resource loop submits one `save_resource` task per qualifying part to a
worker pool and collects completed results into `resource_map`.  Each task
is independent and each distinct content location is written by one task,
so the map for distinct keys is the same whatever the completion order; the
model collects results in submission order.  The `tqdm` counting loop and
progress bar are display-only and not modelled. -/

/-- The per-part step of the resource loop: `none` when the part is skipped
(no `Content-Location:` text, or a `text/html` content type), otherwise the
submitted task's result and filesystem effects.  A part whose parsed
headers lack `content-location` is submitted with `None`, and
`os.path.basename(None)` raises before any filesystem effect; the caught
failure is modelled as `(none, [])`. -/
def partResource (resource_dir part : Str) : Option (Option (Str × Str) × List FsOp) :=
  if containsStr (str "Content-Location:") part then
    let (headers_str, body) := partitionBlank part
    let headers := parse_headers headers_str
    let content_type := ((splitChar ';' ((dictGet headers (str "content-type")).getD [])).headD [])
    let encoding := (dictGet headers (str "content-transfer-encoding")).getD (str "7bit")
    if (str "text/html").isPrefixOf content_type then none
    else
      some (match dictGet headers (str "content-location") with
        | none => (none, [])
        | some cl => save_resource cl content_type (pyStrip body) encoding resource_dir)
  else none

/-- Results and effects of all submitted extraction tasks, in order. -/
def resourceResults (resource_dir : Str) (parts : List Str) :
    List (Option (Str × Str) × List FsOp) :=
  parts.filterMap (partResource resource_dir)

/-- The `as_completed` collection loop: each successful result is assigned
into `resource_map`; failed tasks contribute nothing. -/
def buildMap (rs : List (Option (Str × Str))) : List (Str × Str) :=
  rs.foldl
    (fun m r =>
      match r with
      | some kv => dictInsert m kv.1 kv.2
      | none => m)
    []

/-- The whole `process` method, as a function of the input file's text.
`parse` and `render` stand for the external BeautifulSoup parser and
serializer.  Returns the Python boolean result together with the
filesystem effects performed; the three format errors are raised before
any filesystem work, and console output is not modelled. -/
def process (parse : Str → List Node) (render : List Node → Str)
    (content output_path resource_dir0 : Str) : Bool × List FsOp :=
  match findBoundary content with
  | none => (false, [])
  | some boundary =>
    let parts := splitParts boundary content
    match parts.find? (fun p => containsStr (str "Content-Type: text/html") p) with
    | none => (false, [])
    | some html_part =>
      match findAfterBlank html_part with
      | none => (false, [])
      | some rest =>
        let soup := parse (pyStrip (takeBody rest))
        let soup1 := empty_msg soup
        let (soup2, css) := process_styles soup1
        let resource_dir := pathJoin (dirname output_path) resource_dir0
        let results := resourceResults resource_dir parts
        let fsR := (results.map (fun r => r.2)).flatten
        let resource_map := buildMap (results.map (fun r => r.1))
        let soup3 := update_references resource_map output_path soup2
        match insertStylesheet css soup3 with
        | none => (false, fsR)
        | some soup4 =>
          (true, fsR ++ [FsOp.write output_path (encodeUtf8 (render soup4))])

/-- Whether the pipeline's fatal steps succeed, computed without looking at
any resource-extraction outcome: the format checks pass and, when the
generated stylesheet is non-empty, the document has a `head` or `html`
element to attach it to. -/
def processOk (parse : Str → List Node) (content : Str) : Bool :=
  match findBoundary content with
  | none => false
  | some boundary =>
    match (splitParts boundary content).find?
        (fun p => containsStr (str "Content-Type: text/html") p) with
    | none => false
    | some html_part =>
      match findAfterBlank html_part with
      | none => false
      | some rest =>
        let (soup2, css) := process_styles (empty_msg (parse (pyStrip (takeBody rest))))
        css.isEmpty || hasTag (str "head") soup2 || hasTag (str "html") soup2

/-! ## Specification-side definitions

These formalise the claims' own wording, independently of the source-side
implementations above, so that the claim theorems compare the two. -/

/-- Claim C1's "final path segment of contentLocation": the last
`/`-separated piece. -/
def specFinalSegment (cl : Str) : Str := (splitChar '/' cl).getLastD []

/-- Claim C1's "with any existing extension removed": cut the name at its
last dot, provided some character before that dot is not itself a dot
(a pure dot-prefix such as `.bashrc` carries no extension). -/
def specDropExt (name : Str) : Str :=
  if (splitChar '.' name).length ≤ 1 then name
  else if ((splitChar '.' name).dropLast).any (fun p => !p.isEmpty) then
    strIntercalate (str ".") ((splitChar '.' name).dropLast)
  else name

/-- Claim C1's base name. -/
def specBaseName (cl : Str) : Str := specDropExt (specFinalSegment cl)

/-- Claim C1's "content-type's subtype": the text after the `/`. -/
def specSubtype (ct : Str) : Str := (ct.reverse.takeWhile (fun c => c ≠ '/')).reverse

/-- Claim C1's extension: the fixed map for the three known types, else the
final `+`-separated token of the subtype. -/
def specExt (ct : Str) : Str :=
  if ct = str "image/jpeg" then str "jpg"
  else if ct = str "image/png" then str "png"
  else if ct = str "image/gif" then str "gif"
  else ((specSubtype ct).reverse.takeWhile (fun c => c ≠ '+')).reverse

/-- Claim C1's file name `{baseName}.{extension}`. -/
def specFileName (cl ct : Str) : Str := specBaseName cl ++ str "." ++ specExt ct

/-- Claim C3's reading of the extracted body: the text following the first
blank-line separator of the chosen part, up to the next boundary marker or
end of input (a split chunk contains no boundary marker, so this is the
whole remainder), with surrounding whitespace trimmed. -/
def specBody (content : Str) : Option Str :=
  (htmlPartSel content).bind fun hp => (findAfterBlank hp).map pyStrip

/-- The (zero or one) non-blank stripped inline style contributed by one
element's attributes: exactly the styles the dedup loop processes. -/
def styleHead (attrs : List (Str × AttrVal)) : List Str :=
  if hasAttr attrs (str "style") && !(pyStrip (attrStr attrs (str "style"))).isEmpty
  then [pyStrip (attrStr attrs (str "style"))] else []

/-- The non-blank stripped inline styles of a document in document order,
one entry per element carrying a `style` attribute (claim C4's notion of
"elements with inline style strings"). -/
def nodeStyleList : List Node → List Str
  | [] => []
  | .txt _ :: ns => nodeStyleList ns
  | .elem _ attrs cs :: ns => styleHead attrs ++ nodeStyleList cs ++ nodeStyleList ns

/-- First occurrences of a list's elements, in order, skipping those
already in `seen` (claim C4's "first-seen order"). -/
def firstSeenAux (seen : List Str) : List Str → List Str
  | [] => []
  | s :: ss => if s ∈ seen then firstSeenAux seen ss else s :: firstSeenAux (s :: seen) ss

/-- The style state produced by one run of the style-dedup pass. -/
def styleRun (soup : List Node) : StyleState := (procForest soup initStyleState).2

/-- Claim C5's frame condition on one element's attribute lists: when the
element is one of the rewritten tags and its designated attribute hits the
resource map (with a truthy path), every attribute entry other than the
designated one is preserved in place and any appended entry carries the
designated name; otherwise the attributes are untouched. -/
def attrsFrame (m : List (Str × Str)) (tag : Str)
    (attrs attrs2 : List (Str × AttrVal)) : Bool :=
  let hit :=
    (tag = str "img" || tag = str "link" || tag = str "script") &&
    (match refHit m attrs tag with
     | some rp => !rp.isEmpty
     | none => false)
  if hit then
    decide (attrs.length ≤ attrs2.length) &&
    (List.zip attrs attrs2).all
      (fun pq => pq.1.1 = refAttr tag || decide (pq.2 = pq.1)) &&
    (attrs2.drop attrs.length).all (fun q => q.1 = refAttr tag)
  else decide (attrs2 = attrs)

/-- Claim C5's frame condition between an input document and the rewritten
one: identical shape, identical text nodes and tags, and per-element
attribute preservation as in `attrsFrame`. -/
def frameResp (m : List (Str × Str)) : List Node → List Node → Bool
  | [], [] => true
  | .txt t :: ns, .txt t2 :: ms => decide (t2 = t) && frameResp m ns ms
  | .elem tag attrs cs :: ns, .elem tag2 attrs2 cs2 :: ms =>
    decide (tag2 = tag) && attrsFrame m tag attrs attrs2 &&
      frameResp m cs cs2 && frameResp m ns ms
  | _, _ => false

/-- The keys of a style state's map, in insertion order. -/
def keysOf (st : StyleState) : List Str := st.style_map.map Prod.fst

/-- The invariant the style-dedup pass maintains: the counter is one past
the map size, the map's values are `i-style-1 … i-style-n` in order, its
keys are distinct, and every logged assignment agrees with the map. -/
structure StInv (st : StyleState) : Prop where
  counter_eq : st.counter = st.style_map.length + 1
  names : st.style_map.map Prod.snd =
    (List.range st.style_map.length).map (fun i => styleClassName (i + 1))
  nodupKeys : (st.style_map.map Prod.fst).Nodup
  assignedOk : ∀ p ∈ st.assigned, dictGet st.style_map p.1 = some p.2

/-- How many split chunks contain the `Content-Type: text/html` marker
(claim C3's "exactly one text/html part"). -/
def countHtmlParts (content : Str) : Nat :=
  match findBoundary content with
  | none => 0
  | some b =>
    ((splitParts b content).filter
      (fun p => containsStr (str "Content-Type: text/html") p)).length

/-! ## Concrete documents used as witnesses and counterexamples -/

/-- An MHT document whose HTML body itself contains a line starting with
`--` (here inside an HTML comment): valid, with a declared boundary and
exactly one `text/html` part. -/
def exC3 : Str :=
  str "boundary=\"B\"\n--B\nContent-Type: text/html\n\nhello\n--> world\n--B--\n"

/-- A small well-formed MHT document. -/
def wContent : Str :=
  str "boundary=\"B\"\n--B\nContent-Type: text/html\n\n<p>hi</p>\n--B--\n"

/-- The HTML part `wContent` splits out. -/
def wHtmlPart : Str := str "Content-Type: text/html\n\n<p>hi</p>\n"

/-- The remainder of `wHtmlPart` after its blank line. -/
def wRest : Str := str "<p>hi</p>\n"

/-- A document with a declared boundary but no `text/html` part. -/
def wNoHtml : Str := str "boundary=\"B\"\n--B\nstuff\n"

/-- A document whose HTML part has no blank-line separator. -/
def wNoBlank : Str := str "boundary=\"B\"\n--B\nContent-Type: text/html; x"

/-- Three styled elements: two byte-identical styles and one different. -/
def wSoup4 : List Node :=
  [.elem (str "q") [(str "style", .s (str "a"))] [],
   .elem (str "r") [(str "style", .s (str "a"))] [],
   .elem (str "t") [(str "style", .s (str "b"))] []]

/-- A document that already carries a class but has no inline styles. -/
def wSoup8 : List Node :=
  [.elem (str "div") [(str "class", .l [str "i-style-1"])] [.txt (str "hi")]]

/-- A document with a root `html` element and no `head`. -/
def wSoup9 : List Node := [.elem (str "html") [] []]

/-! ## List helper lemmas -/

lemma getLastD_cons_of_ne_nil {α : Type} (t : List α) (x : α) (d : α) (h : t ≠ []) :
    (x :: t).getLastD d = t.getLastD d := by
  cases t with
  | nil => exact absurd rfl h
  | cons b t => simp [List.getLastD_cons]

lemma takeWhile_all {α : Type} (p : α → Bool) (l : List α)
    (h : ∀ x ∈ l, p x = true) : l.takeWhile p = l := by
  induction l with
  | nil => rfl
  | cons a l ih =>
    have h1 : p a = true := h a (by simp)
    have h2 : l.takeWhile p = l := ih (fun x hx => h x (by simp [hx]))
    simp [List.takeWhile_cons, h1, h2]

lemma takeWhile_append_neg {α : Type} (p : α → Bool) (y : List α) (x : α)
    (h : p x = false) : (y ++ [x]).takeWhile p = y.takeWhile p := by
  induction y with
  | nil => simp [List.takeWhile_cons, h]
  | cons a y ih =>
    by_cases hp : p a = true
    · simp [List.takeWhile_cons, hp, ih]
    · simp [List.takeWhile_cons, Bool.eq_false_iff.mpr hp]

lemma takeWhile_ne_append (c : Char) (y z : Str) (h : c ∈ y) :
    (y ++ z).takeWhile (fun x => decide (x ≠ c)) =
      y.takeWhile (fun x => decide (x ≠ c)) := by
  induction y with
  | nil => cases h
  | cons a y ih =>
    by_cases hac : a = c
    · subst hac; simp [List.takeWhile_cons]
    · have hcy : c ∈ y := by
        rcases List.mem_cons.mp h with h1 | h1
        · exact absurd h1.symm hac
        · exact h1
      have h2 := ih hcy
      simp only [ne_eq, decide_not] at h2 ⊢
      simp [List.takeWhile_cons, hac, h2]

/-! ## splitChar lemmas -/

lemma splitChar_ne_nil (c : Char) (s : Str) : splitChar c s ≠ [] := by
  cases s with
  | nil => simp [splitChar]
  | cons a l =>
    simp only [splitChar]
    split
    · simp
    · split <;> simp

lemma splitChar_not_mem (c : Char) (s : Str) (h : c ∉ s) : splitChar c s = [s] := by
  induction s with
  | nil => rfl
  | cons a l ih =>
    have hac : ¬a = c := fun hh => h (by simp [hh])
    have hcl : c ∉ l := fun hh => h (by simp [hh])
    simp only [splitChar, if_neg hac, ih hcl]

lemma splitChar_mem_length (c : Char) (l : Str) (h : c ∈ l) :
    2 ≤ (splitChar c l).length := by
  induction l with
  | nil => cases h
  | cons a l ih =>
    by_cases hac : a = c
    · have h1 := splitChar_ne_nil c l
      simp only [splitChar, if_pos hac, List.length_cons]
      have : 1 ≤ (splitChar c l).length := List.length_pos.mpr h1
      omega
    · have hcl : c ∈ l := by
        rcases List.mem_cons.mp h with h1 | h1
        · exact absurd h1.symm hac
        · exact h1
      have h2 := ih hcl
      simp only [splitChar, if_neg hac]
      cases hsp : splitChar c l with
      | nil => exact absurd hsp (splitChar_ne_nil c l)
      | cons s ss =>
        rw [hsp] at h2
        simpa using h2

lemma getLastD_splitChar (c : Char) (s : Str) :
    (splitChar c s).getLastD [] = (s.reverse.takeWhile (fun a => decide (a ≠ c))).reverse := by
  induction s with
  | nil => rfl
  | cons a l ih =>
    by_cases hac : a = c
    · subst hac
      rw [show splitChar a (a :: l) = [] :: splitChar a l by simp [splitChar]]
      rw [getLastD_cons_of_ne_nil _ _ _ (splitChar_ne_nil a l), ih]
      have : ((a :: l).reverse).takeWhile (fun x => decide (x ≠ a)) =
          (l.reverse).takeWhile (fun x => decide (x ≠ a)) := by
        rw [List.reverse_cons]
        exact takeWhile_append_neg _ _ _ (by simp)
      rw [this]
    · by_cases hcl : c ∈ l
      · cases hsp : splitChar c l with
        | nil => exact absurd hsp (splitChar_ne_nil c l)
        | cons s ss =>
          have hss : ss ≠ [] := by
            have := splitChar_mem_length c l hcl
            rw [hsp] at this
            cases ss with
            | nil => simp at this
            | cons _ _ => simp
          rw [show splitChar c (a :: l) = (a :: s) :: ss by simp [splitChar, hac, hsp]]
          rw [getLastD_cons_of_ne_nil _ _ _ hss]
          have hl : (splitChar c l).getLastD [] = ss.getLastD [] := by
            rw [hsp, getLastD_cons_of_ne_nil _ _ _ hss]
          rw [← hl, ih]
          have : ((a :: l).reverse).takeWhile (fun x => decide (x ≠ c)) =
              (l.reverse).takeWhile (fun x => decide (x ≠ c)) := by
            rw [List.reverse_cons]
            exact takeWhile_ne_append c _ [a] (by simpa using hcl)
          rw [this]
      · have hna : c ∉ a :: l := by
          intro hmem
          rcases List.mem_cons.mp hmem with h1 | h1
          · exact hac h1.symm
          · exact hcl h1
        rw [splitChar_not_mem c _ hna]
        have h4 : ((a :: l).reverse).takeWhile (fun x => decide (x ≠ c)) = (a :: l).reverse := by
          apply takeWhile_all
          intro x hx
          simp only [ne_eq, decide_eq_true_eq]
          intro hxc
          exact hna (by rw [← hxc]; exact List.mem_reverse.mp hx)
        rw [List.reverse_cons] at h4
        simp only [ne_eq, decide_not] at h4 ⊢
        simp [h4]

lemma strIntercalate_cons (sep x : Str) (xs : List Str) (h : xs ≠ []) :
    strIntercalate sep (x :: xs) = x ++ sep ++ strIntercalate sep xs := by
  cases xs with
  | nil => exact absurd rfl h
  | cons y ys => rfl

lemma strIntercalate_splitChar (c : Char) (s : Str) :
    strIntercalate [c] (splitChar c s) = s := by
  induction s with
  | nil => rfl
  | cons a l ih =>
    by_cases hac : a = c
    · subst hac
      rw [show splitChar a (a :: l) = [] :: splitChar a l by simp [splitChar]]
      rw [strIntercalate_cons _ _ _ (splitChar_ne_nil a l), ih]
      rfl
    · cases hsp : splitChar c l with
      | nil => exact absurd hsp (splitChar_ne_nil c l)
      | cons s ss =>
        rw [show splitChar c (a :: l) = (a :: s) :: ss by simp [splitChar, hac, hsp]]
        cases ss with
        | nil =>
          rw [hsp] at ih
          simpa [strIntercalate] using congrArg (fun t => a :: t) ih
        | cons s2 ss2 =>
          rw [strIntercalate_cons _ _ _ (by simp)]
          rw [hsp] at ih
          rw [strIntercalate_cons _ _ _ (by simp)] at ih
          simpa using congrArg (fun t => a :: t) ih

lemma splitChar_append_cons (c : Char) (x y : Str) :
    splitChar c (x ++ c :: y) = splitChar c x ++ splitChar c y := by
  induction x with
  | nil => simp [splitChar]
  | cons a x ih =>
    by_cases hac : a = c
    · subst hac
      rw [List.cons_append,
        show splitChar a (a :: (x ++ a :: y)) = [] :: splitChar a (x ++ a :: y) by
          simp [splitChar],
        show splitChar a (a :: x) = [] :: splitChar a x by simp [splitChar],
        ih]
      rfl
    · cases hsp : splitChar c x with
      | nil => exact absurd hsp (splitChar_ne_nil c x)
      | cons s ss =>
        rw [hsp] at ih
        have lhs : splitChar c (a :: (x ++ c :: y)) =
            match splitChar c (x ++ c :: y) with
            | [] => [[a]]
            | s :: ss => (a :: s) :: ss := by simp [splitChar, hac]
        rw [List.cons_append, lhs, ih]
        rw [show splitChar c (a :: x) = (a :: s) :: ss by simp [splitChar, hac, hsp]]
        cases hsp2 : splitChar c y with
        | nil => exact absurd hsp2 (splitChar_ne_nil c y)
        | cons t ts => simp

lemma any_splitChar (c : Char) (s : Str) :
    (splitChar c s).any (fun p => !p.isEmpty) = s.any (fun a => decide (a ≠ c)) := by
  induction s with
  | nil => rfl
  | cons a l ih =>
    by_cases hac : a = c
    · subst hac
      rw [show splitChar a (a :: l) = [] :: splitChar a l by simp [splitChar]]
      simp [ih]
    · cases hsp : splitChar c l with
      | nil => exact absurd hsp (splitChar_ne_nil c l)
      | cons s ss =>
        rw [show splitChar c (a :: l) = (a :: s) :: ss by simp [splitChar, hac, hsp]]
        simp [hac]

/-! ## Dictionary lemmas -/

lemma dictGet_append (d e : List (Str × Str)) (k : Str) :
    dictGet (d ++ e) k = (dictGet d k).or (dictGet e k) := by
  unfold dictGet
  rw [List.find?_append]
  cases h : d.find? (fun p => decide (p.1 = k)) <;> simp [h]

lemma dictGet_eq_none (d : List (Str × Str)) (k : Str) :
    dictGet d k = none ↔ ∀ p ∈ d, p.1 ≠ k := by
  simp [dictGet, List.find?_eq_none]

lemma dictGet_some_mem (d : List (Str × Str)) (k v : Str)
    (h : dictGet d k = some v) : (k, v) ∈ d := by
  unfold dictGet at h
  cases hf : d.find? (fun p => decide (p.1 = k)) with
  | none => rw [hf] at h; cases h
  | some p =>
    rw [hf] at h
    have hp : p.1 = k := by simpa using List.find?_some hf
    have hm : p ∈ d := List.mem_of_find?_eq_some hf
    have hv : p.2 = v := by simpa using h
    have : p = (k, v) := by
      cases p; simp_all
    rwa [this] at hm

lemma dictGet_mapOverwrite (d : List (Str × Str)) (k v k2 : Str) :
    dictGet (d.map (fun p => if p.1 = k then (k, v) else p)) k2 =
      if k2 = k then (if d.any (fun p => decide (p.1 = k)) then some v else none)
      else dictGet d k2 := by
  have hcomp : ((fun q : Str × Str => decide (q.1 = k2)) ∘
      (fun p : Str × Str => if p.1 = k then (k, v) else p)) =
      fun q : Str × Str => decide (q.1 = k2) := by
    funext q
    by_cases hq : q.1 = k <;> simp [Function.comp, hq]
  unfold dictGet
  rw [List.find?_map, hcomp]
  by_cases hk2 : k2 = k
  · subst hk2
    cases hf : d.find? (fun q => decide (q.1 = k2)) with
    | none =>
      have hnone : ¬d.any (fun p => decide (p.1 = k2)) = true := by
        rw [List.any_eq_true]
        rintro ⟨p, hp, hpk⟩
        exact List.find?_eq_none.mp hf p hp hpk
      simp [hnone]
    | some q =>
      have hq : q.1 = k2 := by simpa using List.find?_some hf
      have hany : d.any (fun p => decide (p.1 = k2)) = true :=
        List.any_eq_true.mpr ⟨q, List.mem_of_find?_eq_some hf, by simp [hq]⟩
      simp [hany, hq]
  · cases hf : d.find? (fun q => decide (q.1 = k2)) with
    | none => simp [hk2]
    | some q =>
      have hq : q.1 = k2 := by simpa using List.find?_some hf
      have hqk : ¬q.1 = k := by rw [hq]; exact hk2
      simp [hk2, hqk]

lemma dictGet_dictInsert (d : List (Str × Str)) (k v k2 : Str) :
    dictGet (dictInsert d k v) k2 = if k2 = k then some v else dictGet d k2 := by
  unfold dictInsert
  by_cases hany : d.any (fun p => decide (p.1 = k)) = true
  · rw [if_pos hany, dictGet_mapOverwrite, hany]
    by_cases hk2 : k2 = k <;> simp [hk2]
  · rw [if_neg hany, dictGet_append]
    by_cases hk2 : k2 = k
    · subst hk2
      have hnone : dictGet d k2 = none := by
        rw [dictGet_eq_none]
        intro p hp hpk
        exact hany (List.any_eq_true.mpr ⟨p, hp, by simp [hpk]⟩)
      have h2 : dictGet [(k2, v)] k2 = some v := by
        unfold dictGet
        rw [List.find?_cons_of_pos _ (by simp)]
        rfl
      rw [hnone, h2, if_pos rfl]
      rfl
    · have hkk2 : ¬k = k2 := fun h => hk2 h.symm
      have h1 : dictGet [(k, v)] k2 = none := by
        unfold dictGet
        rw [List.find?_cons_of_neg _ (by simpa using hkk2)]
        rfl
      rw [h1, if_neg hk2, Option.or_none]

lemma dictGet_foldl_insert (es : List (Str × Str)) (d : List (Str × Str)) (k : Str) :
    dictGet (es.foldl (fun m e => dictInsert m e.1 e.2) d) k =
      match es.reverse.find? (fun p => decide (p.1 = k)) with
      | some p => some p.2
      | none => dictGet d k := by
  induction es generalizing d with
  | nil => simp
  | cons a es ih =>
    rw [List.foldl_cons, ih, List.reverse_cons, List.find?_append]
    cases h : es.reverse.find? (fun p => decide (p.1 = k)) with
    | some p => simp
    | none =>
      simp only [Option.none_or]
      rw [dictGet_dictInsert]
      by_cases hak : a.1 = k
      · rw [List.find?_cons_of_pos _ (by simp [hak]), if_pos hak.symm]
      · rw [List.find?_cons_of_neg _ (by simp [hak]), if_neg (fun h2 => hak h2.symm)]
        rfl

lemma parse_headers_eq_fold (s : Str) :
    parse_headers s =
      (headerEntries s).foldl (fun m e => dictInsert m e.1 e.2) [] := by
  unfold parse_headers headerEntries
  generalize splitChar '\n' s = lines
  suffices h : ∀ (d : List (Str × Str)),
      lines.foldl
        (fun d line =>
          match splitOnce ':' line with
          | none => d
          | some (k, v) => dictInsert d (pyLower (pyStrip k)) (pyStrip v)) d =
        (lines.filterMap lineEntry).foldl (fun m e => dictInsert m e.1 e.2) d by
    exact h []
  induction lines with
  | nil => intro d; rfl
  | cons line lines ih =>
    intro d
    cases h : splitOnce ':' line with
    | none => simp [List.foldl_cons, List.filterMap_cons, lineEntry, h, ih]
    | some p =>
      cases p with
      | mk k v => simp [List.foldl_cons, List.filterMap_cons, lineEntry, h, ih]

/-! ## Decimal printing lemmas -/

lemma natToStrF_congr : ∀ (f g n : Nat), n < f → n < g → natToStrF f n = natToStrF g n := by
  intro f
  induction f with
  | zero => intro g n h; omega
  | succ f ih =>
    intro g n hf hg
    cases g with
    | zero => omega
    | succ g =>
      by_cases h10 : n < 10
      · simp [natToStrF, h10]
      · have hdiv : n / 10 < n := Nat.div_lt_self (by omega) (by omega)
        simp only [natToStrF, if_neg h10]
        rw [ih g (n / 10) (by omega) (by omega)]

lemma natToStr_unfold (n : Nat) :
    natToStr n =
      if n < 10 then [digitChar n]
      else natToStr (n / 10) ++ [digitChar (n % 10)] := by
  unfold natToStr
  by_cases h : n < 10
  · simp [natToStrF, h]
  · have hdiv : n / 10 < n := Nat.div_lt_self (by omega) (by omega)
    rw [if_neg h,
      show natToStrF (n + 1) n = natToStrF n (n / 10) ++ [digitChar (n % 10)] by
        simp [natToStrF, h]]
    rw [natToStrF_congr n (n / 10 + 1) (n / 10) (by omega) (by omega)]

lemma digitChar_inj : ∀ d < 10, ∀ e < 10, digitChar d = digitChar e → d = e := by decide

lemma natToStr_ne_nil (n : Nat) : natToStr n ≠ [] := by
  rw [natToStr_unfold]
  split <;> simp

lemma natToStr_inj : ∀ m n : Nat, natToStr m = natToStr n → m = n := by
  intro m
  induction m using Nat.strong_induction_on with
  | _ m ih =>
    intro n h
    rw [natToStr_unfold m, natToStr_unfold n] at h
    by_cases hm : m < 10 <;> by_cases hn : n < 10
    · rw [if_pos hm, if_pos hn] at h
      exact digitChar_inj m hm n hn (by simpa using h)
    · rw [if_pos hm, if_neg hn] at h
      have hlen := congrArg List.length h
      have h2 : 1 ≤ (natToStr (n / 10)).length :=
        List.length_pos.mpr (natToStr_ne_nil _)
      simp only [List.length_append, List.length_cons, List.length_nil] at hlen
      omega
    · rw [if_neg hm, if_pos hn] at h
      have hlen := congrArg List.length h
      have h2 : 1 ≤ (natToStr (m / 10)).length :=
        List.length_pos.mpr (natToStr_ne_nil _)
      simp only [List.length_append, List.length_cons, List.length_nil] at hlen
      omega
    · rw [if_neg hm, if_neg hn] at h
      have h2 := congrArg List.reverse h
      simp only [List.reverse_append, List.reverse_cons, List.reverse_nil,
        List.nil_append, List.singleton_append, List.cons.injEq] at h2
      obtain ⟨hd, htl⟩ := h2
      have hm10 : m % 10 = n % 10 :=
        digitChar_inj _ (Nat.mod_lt _ (by omega)) _ (Nat.mod_lt _ (by omega)) hd
      have hdiv : natToStr (m / 10) = natToStr (n / 10) := by
        have h3 := congrArg List.reverse htl
        simpa using h3
      have hq := ih (m / 10) (Nat.div_lt_self (by omega) (by omega)) (n / 10) hdiv
      omega

lemma styleClassName_inj (m n : Nat) (h : styleClassName m = styleClassName n) : m = n := by
  unfold styleClassName at h
  exact natToStr_inj m n (List.append_cancel_left h)

/-! ## Filename equivalence lemmas (claim C1) -/

lemma specFinalSegment_eq_basename (cl : Str) : specFinalSegment cl = basename cl := by
  unfold specFinalSegment basename
  exact getLastD_splitChar '/' cl

lemma dropWhile_head_false {α : Type} (p : α → Bool) (l : List α) (x : α) (xs : List α)
    (h : l.dropWhile p = x :: xs) : p x = false := by
  induction l with
  | nil => cases h
  | cons a l ih =>
    rw [List.dropWhile_cons] at h
    split at h
    · exact ih h
    · cases h
      rename_i hp
      exact Bool.eq_false_iff.mpr hp

lemma specDropExt_eq_splitextRoot (s : Str) : specDropExt s = splitextRoot s := by
  by_cases hmem : '.' ∈ s
  · have hmr : '.' ∈ s.reverse := List.mem_reverse.mpr hmem
    cases hdw : s.reverse.dropWhile (fun c => decide (c ≠ '.')) with
    | nil =>
      exfalso
      have hall := List.dropWhile_eq_nil_iff.mp hdw '.' hmr
      simp at hall
    | cons d pre =>
      have hd : d = '.' := by
        have h1 := dropWhile_head_false _ _ _ _ hdw
        simpa using h1
      subst hd
      have hsplit : s.reverse =
          s.reverse.takeWhile (fun c => decide (c ≠ '.')) ++ '.' :: pre := by
        conv_lhs => rw [← List.takeWhile_append_dropWhile
          (p := fun c => decide (c ≠ '.')) (l := s.reverse)]
        rw [hdw]
      have hs : s = pre.reverse ++ '.' ::
          (s.reverse.takeWhile (fun c => decide (c ≠ '.'))).reverse := by
        have h1 := congrArg List.reverse hsplit
        rw [List.reverse_reverse] at h1
        conv_lhs => rw [h1]
        simp [List.reverse_append]
      have hB : '.' ∉ (s.reverse.takeWhile (fun c => decide (c ≠ '.'))).reverse := by
        intro hmem2
        have h1 := List.mem_takeWhile_imp (List.mem_reverse.mp hmem2)
        simp at h1
      -- specDropExt side
      have hparts : splitChar '.' s =
          splitChar '.' pre.reverse ++
            [(s.reverse.takeWhile (fun c => decide (c ≠ '.'))).reverse] := by
        conv_lhs => rw [hs]
        rw [splitChar_append_cons, splitChar_not_mem _ _ hB]
      have hlen : ¬(splitChar '.' s).length ≤ 1 := by
        rw [hparts]
        have h1 : 1 ≤ (splitChar '.' pre.reverse).length :=
          List.length_pos.mpr (splitChar_ne_nil _ _)
        simp only [List.length_append, List.length_cons, List.length_nil]
        omega
      have hspec : specDropExt s =
          (if ((splitChar '.' pre.reverse).any (fun p => !p.isEmpty)) = true
           then strIntercalate (str ".") (splitChar '.' pre.reverse) else s) := by
        unfold specDropExt
        rw [if_neg hlen, hparts, List.dropLast_concat]
      have hsrc : splitextRoot s =
          (if (pre.reverse.any fun c => decide (c ≠ '.')) = true
           then pre.reverse else s) := by
        unfold splitextRoot
        rw [hdw]
      rw [hspec, hsrc, any_splitChar]
      by_cases hany : (pre.reverse.any fun c => decide (c ≠ '.')) = true
      · rw [if_pos hany, if_pos hany,
          show str "." = ['.'] from rfl, strIntercalate_splitChar]
      · rw [if_neg hany, if_neg hany]
  · have h1 : splitChar '.' s = [s] := splitChar_not_mem _ _ hmem
    have h2 : s.reverse.dropWhile (fun c => decide (c ≠ '.')) = [] := by
      rw [List.dropWhile_eq_nil_iff]
      intro x hx
      simp only [ne_eq, decide_eq_true_eq]
      exact fun hxe => hmem (by rw [← hxe]; exact List.mem_reverse.mp hx)
    unfold specDropExt splitextRoot
    rw [h1, h2]
    simp

lemma lastTok_eq_takeWhile (c : Char) (s : Str) :
    lastTok c s = (s.reverse.takeWhile (fun a => decide (a ≠ c))).reverse := by
  unfold lastTok
  exact getLastD_splitChar c s

lemma specExt_eq (ct : Str) :
    specExt ct = (dictGet CONTENT_TYPE_MAP ct).getD (lastTok '+' (lastTok '/' ct)) := by
  unfold specExt specSubtype CONTENT_TYPE_MAP
  by_cases h1 : ct = str "image/jpeg"
  · subst h1
    rw [if_pos rfl]
    unfold dictGet
    rw [List.find?_cons_of_pos _ (by simp)]
    rfl
  · by_cases h2 : ct = str "image/png"
    · subst h2
      rw [if_neg (by intro h; exact h1 h), if_pos rfl]
      unfold dictGet
      rw [List.find?_cons_of_neg _ (by simpa using fun h => h1 h.symm),
        List.find?_cons_of_pos _ (by simp)]
      rfl
    · by_cases h3 : ct = str "image/gif"
      · subst h3
        rw [if_neg (by intro h; exact h1 h), if_neg (by intro h; exact h2 h), if_pos rfl]
        unfold dictGet
        rw [List.find?_cons_of_neg _ (by simpa using fun h => h1 h.symm),
          List.find?_cons_of_neg _ (by simpa using fun h => h2 h.symm),
          List.find?_cons_of_pos _ (by simp)]
        rfl
      · rw [if_neg h1, if_neg h2, if_neg h3]
        have hnone : dictGet
            [(str "image/jpeg", str "jpg"), (str "image/png", str "png"),
             (str "image/gif", str "gif")] ct = none := by
          unfold dictGet
          rw [List.find?_cons_of_neg _ (by simpa using fun h => h1 h.symm),
            List.find?_cons_of_neg _ (by simpa using fun h => h2 h.symm),
            List.find?_cons_of_neg _ (by simpa using fun h => h3 h.symm)]
          rfl
        rw [hnone, Option.getD_none, lastTok_eq_takeWhile, lastTok_eq_takeWhile]

/-! ## Body-extraction lemmas (claim C3) -/

lemma containsStr_cons (needle : Str) (c : Char) (cs : Str) :
    containsStr needle (c :: cs) = (needle.isPrefixOf (c :: cs) || containsStr needle cs) := rfl

lemma takeBody_no_marker (r : Str) (h : containsStr (str "\n--") r = false) :
    takeBody r = r ∨ ∃ r0, r = r0 ++ ['\n'] ∧ takeBody r = r0 := by
  induction r with
  | nil => exact Or.inl rfl
  | cons c cs ih =>
    rw [containsStr_cons] at h
    simp only [Bool.or_eq_false_iff] at h
    obtain ⟨h1, h2⟩ := h
    by_cases hnl : (c :: cs : Str) = ['\n']
    · refine Or.inr ⟨[], by simpa using hnl, ?_⟩
      rw [hnl]
      decide
    · have heq : takeBody (c :: cs) = c :: takeBody cs := by
        simp [takeBody, h1, hnl]
      rcases ih h2 with h3 | ⟨r0, hr, ht⟩
      · exact Or.inl (by rw [heq, h3])
      · exact Or.inr ⟨c :: r0, by rw [hr]; rfl, by rw [heq, ht]⟩

lemma pyStrip_append_nl (x : Str) : pyStrip (x ++ ['\n']) = pyStrip x := by
  unfold pyStrip
  by_cases hall : ∀ a ∈ x, Char.isWhitespace a = true
  · have h1 : (x ++ ['\n']).dropWhile Char.isWhitespace = [] := by
      rw [List.dropWhile_eq_nil_iff]
      intro a ha
      rcases List.mem_append.mp ha with h2 | h2
      · exact hall a h2
      · simp at h2; subst h2; decide
    have h2 : x.dropWhile Char.isWhitespace = [] := List.dropWhile_eq_nil_iff.mpr hall
    rw [h1, h2]
  · have hne : ¬(x.dropWhile Char.isWhitespace).isEmpty = true := by
      intro hemp
      apply hall
      intro a ha
      exact List.dropWhile_eq_nil_iff.mp (List.isEmpty_iff.mp hemp) a ha
    have h1 : (x ++ ['\n']).dropWhile Char.isWhitespace =
        x.dropWhile Char.isWhitespace ++ ['\n'] := by
      rw [List.dropWhile_append, if_neg hne]
    rw [h1, List.reverse_append]
    simp only [List.reverse_cons, List.reverse_nil, List.nil_append, List.singleton_append]
    rw [List.dropWhile_cons, if_pos (by decide)]

lemma pyStrip_takeBody (r : Str) (h : containsStr (str "\n--") r = false) :
    pyStrip (takeBody r) = pyStrip r := by
  rcases takeBody_no_marker r h with h1 | ⟨r0, hr, ht⟩
  · rw [h1]
  · rw [ht, hr, pyStrip_append_nl]

lemma splitOnce_prepend (c : Char) (k v : Str) (h : c ∉ k) :
    splitOnce c (k ++ c :: v) = some (k, v) := by
  induction k with
  | nil => simp [splitOnce]
  | cons a k ih =>
    have hac : ¬a = c := fun hh => h (by simp [hh])
    have h2 : c ∉ k := fun hh => h (by simp [hh])
    simp [splitOnce, hac, ih h2]


/-! ## Reference-rewrite frame lemmas (claim C5) -/

lemma zip_map_self {α : Type} (l : List α) (f : α → α) :
    List.zip l (l.map f) = l.map (fun x => (x, f x)) := by
  induction l with
  | nil => rfl
  | cons a l ih => simp [ih]

lemma zip_self_append {α : Type} (l y : List α) :
    List.zip l (l ++ y) = l.map (fun x => (x, x)) := by
  induction l with
  | nil => rfl
  | cons a l ih => simp [ih]

lemma attrsFrame_parts (a : Str) (attrs : List (Str × AttrVal)) (v : AttrVal) :
    decide (attrs.length ≤ (setAttr attrs a v).length) = true ∧
    ((List.zip attrs (setAttr attrs a v)).all
      (fun pq => decide (pq.1.1 = a) || decide (pq.2 = pq.1))) = true ∧
    (((setAttr attrs a v).drop attrs.length).all (fun q => decide (q.1 = a))) = true := by
  unfold setAttr
  split
  · refine ⟨by simp, ?_, ?_⟩
    · rw [zip_map_self, List.all_eq_true]
      intro pq hpq
      obtain ⟨p, hp, rfl⟩ := List.mem_map.mp hpq
      by_cases hpa : p.1 = a <;> simp [hpa]
    · rw [show attrs.length = (attrs.map fun p => if p.1 = a then (a, v) else p).length by simp]
      rw [List.drop_length]
      rfl
  · refine ⟨by simp, ?_, ?_⟩
    · rw [zip_self_append, List.all_eq_true]
      intro pq hpq
      obtain ⟨p, hp, rfl⟩ := List.mem_map.mp hpq
      simp
    · rw [List.drop_left, List.all_cons]
      simp

lemma attrsFrame_hit_cond (m : List (Str × Str)) (tag : Str)
    (attrs attrs2 : List (Str × AttrVal)) :
    attrsFrame m tag attrs attrs2 =
      if ((decide (tag = str "img") || decide (tag = str "link") ||
            decide (tag = str "script")) &&
          (match refHit m attrs tag with
           | some rp => !List.isEmpty rp
           | none => false)) = true then
        (decide (attrs.length ≤ attrs2.length) &&
          (attrs.zip attrs2).all
            (fun pq => decide (pq.1.1 = refAttr tag) || decide (pq.2 = pq.1))) &&
        (List.drop attrs.length attrs2).all (fun q => decide (q.1 = refAttr tag))
      else decide (attrs2 = attrs) := rfl

lemma attrsFrame_update (m : List (Str × Str)) (out tag : Str)
    (attrs : List (Str × AttrVal)) :
    attrsFrame m tag attrs (update_tag_attrs m out tag attrs) = true := by
  rw [attrsFrame_hit_cond]
  unfold update_tag_attrs
  by_cases htag : (decide (tag = str "img") || decide (tag = str "link") ||
      decide (tag = str "script")) = true
  · rw [if_pos htag]
    cases hhit : refHit m attrs tag with
    | none => simp [htag, hhit]
    | some rp =>
      dsimp only
      by_cases hrp : rp.isEmpty = true
      · rw [if_pos hrp]
        simp [htag, hrp]
      · rw [if_neg hrp]
        have h3 := attrsFrame_parts (refAttr tag) attrs (.s (relpath rp (dirname out)))
        rw [if_pos (by simp [htag, hrp])]
        rw [h3.1, h3.2.1, h3.2.2]
        rfl
  · rw [if_neg htag,
      if_neg (by simp only [Bool.and_eq_true]; exact fun hh => htag hh.1)]
    simp

lemma frameResp_update (m : List (Str × Str)) (out : Str) (soup : List Node) :
    frameResp m soup (update_references m out soup) = true := by
  induction soup using update_references.induct m out with
  | case1 => simp [update_references, frameResp]
  | case2 t ns ih =>
    rw [show update_references m out (Node.txt t :: ns) =
        Node.txt t :: update_references m out ns by simp [update_references]]
    simp [frameResp, ih]
  | case3 tag attrs cs ns ih1 ih2 =>
    rw [show update_references m out (Node.elem tag attrs cs :: ns) =
        Node.elem tag (update_tag_attrs m out tag attrs)
          (update_references m out cs) :: update_references m out ns by
      simp [update_references]]
    simp [frameResp, ih1, ih2, attrsFrame_update]


/-! ## Stylesheet-injection lemmas (claim C9) -/

lemma mapFirstTag_isSome (name : Str) (f : List Node → List Node) (l : List Node) :
    (mapFirstTag name f l).isSome = hasTag name l := by
  induction l using mapFirstTag.induct name f with
  | case1 => simp [mapFirstTag, hasTag]
  | case2 t ns ih =>
    rw [show mapFirstTag name f (Node.txt t :: ns) =
        (mapFirstTag name f ns).map (fun ns1 => Node.txt t :: ns1) by
      simp [mapFirstTag]]
    rw [show hasTag name (Node.txt t :: ns) = hasTag name ns by simp [hasTag]]
    simp [ih]
  | case3 attrs cs ns =>
    rw [show mapFirstTag name f (Node.elem name attrs cs :: ns) =
        some (Node.elem name attrs (f cs) :: ns) by simp [mapFirstTag]]
    rw [show hasTag name (Node.elem name attrs cs :: ns) =
        (decide (name = name) || hasTag name cs || hasTag name ns) by simp [hasTag]]
    simp
  | case4 tag attrs cs ns htag cs1 hcs ih =>
    rw [show mapFirstTag name f (Node.elem tag attrs cs :: ns) =
        some (Node.elem tag attrs cs1 :: ns) by simp [mapFirstTag, htag, hcs]]
    rw [show hasTag name (Node.elem tag attrs cs :: ns) =
        (decide (tag = name) || hasTag name cs || hasTag name ns) by simp [hasTag]]
    have h1 : hasTag name cs = true := by rw [← ih, hcs]; rfl
    simp [h1]
  | case5 tag attrs cs ns htag hcs ih1 ih2 =>
    rw [show mapFirstTag name f (Node.elem tag attrs cs :: ns) =
        (mapFirstTag name f ns).map (fun ns1 => Node.elem tag attrs cs :: ns1) by
      simp [mapFirstTag, htag, hcs]]
    rw [show hasTag name (Node.elem tag attrs cs :: ns) =
        (decide (tag = name) || hasTag name cs || hasTag name ns) by simp [hasTag]]
    have h1 : hasTag name cs = false := by rw [← ih1, hcs]; rfl
    simp [htag, h1, ih2]

lemma firstTagChildren_isSome (name : Str) (l : List Node) :
    (firstTagChildren name l).isSome = hasTag name l := by
  induction l using firstTagChildren.induct name with
  | case1 => simp [firstTagChildren, hasTag]
  | case2 t ns ih =>
    rw [show firstTagChildren name (Node.txt t :: ns) = firstTagChildren name ns by
      simp [firstTagChildren]]
    rw [show hasTag name (Node.txt t :: ns) = hasTag name ns by simp [hasTag]]
    exact ih
  | case3 attrs cs ns =>
    rw [show firstTagChildren name (Node.elem name attrs cs :: ns) = some cs by
      simp [firstTagChildren]]
    rw [show hasTag name (Node.elem name attrs cs :: ns) =
        (decide (name = name) || hasTag name cs || hasTag name ns) by simp [hasTag]]
    simp
  | case4 tag attrs cs ns htag ih1 ih2 =>
    rw [show firstTagChildren name (Node.elem tag attrs cs :: ns) =
        (firstTagChildren name cs).or (firstTagChildren name ns) by
      simp [firstTagChildren, htag]]
    rw [show hasTag name (Node.elem tag attrs cs :: ns) =
        (decide (tag = name) || hasTag name cs || hasTag name ns) by simp [hasTag]]
    cases h1 : firstTagChildren name cs with
    | none =>
      rw [h1] at ih1
      simp [htag, ← ih1, ih2]
    | some x =>
      rw [h1] at ih1
      simp [htag, ← ih1]

lemma firstTagChildren_mapFirstTag (name : Str) (f : List Node → List Node) :
    ∀ (l l2 : List Node), mapFirstTag name f l = some l2 →
      firstTagChildren name l2 = (firstTagChildren name l).map f := by
  intro l
  induction l using mapFirstTag.induct name f with
  | case1 => intro l2 h; simp [mapFirstTag] at h
  | case2 t ns ih =>
    intro l2 h
    rw [show mapFirstTag name f (Node.txt t :: ns) =
        (mapFirstTag name f ns).map (fun ns1 => Node.txt t :: ns1) by
      simp [mapFirstTag]] at h
    cases hns : mapFirstTag name f ns with
    | none => rw [hns] at h; cases h
    | some ns2 =>
      rw [hns] at h
      have hl2 : l2 = Node.txt t :: ns2 := by simpa using h.symm
      subst hl2
      rw [show firstTagChildren name (Node.txt t :: ns2) = firstTagChildren name ns2 by
        simp [firstTagChildren]]
      rw [show firstTagChildren name (Node.txt t :: ns) = firstTagChildren name ns by
        simp [firstTagChildren]]
      exact ih ns2 hns
  | case3 attrs cs ns =>
    intro l2 h
    rw [show mapFirstTag name f (Node.elem name attrs cs :: ns) =
        some (Node.elem name attrs (f cs) :: ns) by simp [mapFirstTag]] at h
    have hl2 : l2 = Node.elem name attrs (f cs) :: ns := by simpa using h.symm
    subst hl2
    rw [show firstTagChildren name (Node.elem name attrs (f cs) :: ns) = some (f cs) by
      simp [firstTagChildren]]
    rw [show firstTagChildren name (Node.elem name attrs cs :: ns) = some cs by
      simp [firstTagChildren]]
    rfl
  | case4 tag attrs cs ns htag cs1 hcs ih =>
    intro l2 h
    rw [show mapFirstTag name f (Node.elem tag attrs cs :: ns) =
        some (Node.elem tag attrs cs1 :: ns) by simp [mapFirstTag, htag, hcs]] at h
    have hl2 : l2 = Node.elem tag attrs cs1 :: ns := by simpa using h.symm
    subst hl2
    rw [show firstTagChildren name (Node.elem tag attrs cs1 :: ns) =
        (firstTagChildren name cs1).or (firstTagChildren name ns) by
      simp [firstTagChildren, htag]]
    rw [show firstTagChildren name (Node.elem tag attrs cs :: ns) =
        (firstTagChildren name cs).or (firstTagChildren name ns) by
      simp [firstTagChildren, htag]]
    rw [ih cs1 hcs]
    have hsome : (firstTagChildren name cs).isSome = true := by
      rw [firstTagChildren_isSome, ← mapFirstTag_isSome name f, hcs]
      rfl
    cases h2 : firstTagChildren name cs with
    | none => rw [h2] at hsome; cases hsome
    | some x => simp
  | case5 tag attrs cs ns htag hcs ih1 ih2 =>
    intro l2 h
    rw [show mapFirstTag name f (Node.elem tag attrs cs :: ns) =
        (mapFirstTag name f ns).map (fun ns1 => Node.elem tag attrs cs :: ns1) by
      simp [mapFirstTag, htag, hcs]] at h
    cases hns : mapFirstTag name f ns with
    | none => rw [hns] at h; cases h
    | some ns2 =>
      rw [hns] at h
      have hl2 : l2 = Node.elem tag attrs cs :: ns2 := by simpa using h.symm
      subst hl2
      rw [show firstTagChildren name (Node.elem tag attrs cs :: ns2) =
          (firstTagChildren name cs).or (firstTagChildren name ns2) by
        simp [firstTagChildren, htag]]
      rw [show firstTagChildren name (Node.elem tag attrs cs :: ns) =
          (firstTagChildren name cs).or (firstTagChildren name ns) by
        simp [firstTagChildren, htag]]
      have hnone : firstTagChildren name cs = none := by
        have h3 : (firstTagChildren name cs).isSome = false := by
          rw [firstTagChildren_isSome, ← mapFirstTag_isSome name f, hcs]
          rfl
        cases h4 : firstTagChildren name cs with
        | none => rfl
        | some x => rw [h4] at h3; cases h3
      rw [hnone, ih2 ns2 hns]
      simp

/-! ## Pipeline lemmas (claims C2, C6) -/

lemma hasTag_update_references (name : Str) (m : List (Str × Str)) (out : Str)
    (l : List Node) : hasTag name (update_references m out l) = hasTag name l := by
  induction l using update_references.induct m out with
  | case1 => simp [update_references]
  | case2 t ns ih =>
    rw [show update_references m out (Node.txt t :: ns) =
        Node.txt t :: update_references m out ns by simp [update_references]]
    rw [show hasTag name (Node.txt t :: update_references m out ns) =
        hasTag name (update_references m out ns) by simp [hasTag]]
    rw [show hasTag name (Node.txt t :: ns) = hasTag name ns by simp [hasTag]]
    exact ih
  | case3 tag attrs cs ns ih1 ih2 =>
    rw [show update_references m out (Node.elem tag attrs cs :: ns) =
        Node.elem tag (update_tag_attrs m out tag attrs)
          (update_references m out cs) :: update_references m out ns by
      simp [update_references]]
    rw [show hasTag name (Node.elem tag (update_tag_attrs m out tag attrs)
          (update_references m out cs) :: update_references m out ns) =
        (decide (tag = name) || hasTag name (update_references m out cs) ||
          hasTag name (update_references m out ns)) by simp [hasTag]]
    rw [show hasTag name (Node.elem tag attrs cs :: ns) =
        (decide (tag = name) || hasTag name cs || hasTag name ns) by simp [hasTag]]
    rw [ih1, ih2]

lemma insertStylesheet_isSome (css : Str) (l : List Node) :
    (insertStylesheet css l).isSome =
      (css.isEmpty || hasTag (str "head") l || hasTag (str "html") l) := by
  unfold insertStylesheet
  by_cases hc : css.isEmpty = true
  · simp [hc]
  · rw [if_neg hc]
    have hcf : css.isEmpty = false := by
      cases hx : css.isEmpty
      · rfl
      · exact absurd hx hc
    cases h1 : mapFirstTag (str "head") (fun cs => cs ++ [styleTag css]) l with
    | some s1 =>
      have hh : hasTag (str "head") l = true := by
        rw [← mapFirstTag_isSome (str "head") (fun cs => cs ++ [styleTag css]), h1]
        rfl
      simp [hh]
    | none =>
      have hh : hasTag (str "head") l = false := by
        rw [← mapFirstTag_isSome (str "head") (fun cs => cs ++ [styleTag css]), h1]
        rfl
      dsimp only
      rw [mapFirstTag_isSome, hh, hcf]
      simp

lemma procForest_id_of_no_styles :
    ∀ (l : List Node) (st : StyleState), nodeStyleList l = [] → procForest l st = (l, st) := by
  intro l
  induction l using nodeStyleList.induct with
  | case1 => intro st h; simp [procForest]
  | case2 t ns ih =>
    intro st h
    rw [show nodeStyleList (Node.txt t :: ns) = nodeStyleList ns by simp [nodeStyleList]] at h
    rw [show procForest (Node.txt t :: ns) st =
        (Node.txt t :: (procForest ns st).1, (procForest ns st).2) by
      simp [procForest]]
    rw [ih st h]
  | case3 tag attrs cs ns ih1 ih2 =>
    intro st h
    rw [show nodeStyleList (Node.elem tag attrs cs :: ns) =
        styleHead attrs ++ nodeStyleList cs ++ nodeStyleList ns by simp [nodeStyleList]] at h
    rw [List.append_assoc, List.append_eq_nil] at h
    obtain ⟨hh, h2⟩ := h
    rw [List.append_eq_nil] at h2
    obtain ⟨hcs, hns⟩ := h2
    have hstep : styleStep attrs st = (attrs, st) := by
      unfold styleStep
      unfold styleHead at hh
      by_cases ha : hasAttr attrs (str "style") = true
      · rw [if_pos ha]
        dsimp only
        by_cases he : (pyStrip (attrStr attrs (str "style"))).isEmpty = true
        · rw [if_pos he]
        · exfalso
          have hb : (pyStrip (attrStr attrs (str "style"))).isEmpty = false := by
            cases hx : (pyStrip (attrStr attrs (str "style"))).isEmpty
            · rfl
            · exact absurd hx he
          rw [ha, hb] at hh
          simp at hh
      · rw [if_neg ha]
    rw [show procForest (Node.elem tag attrs cs :: ns) st =
        (Node.elem tag (styleStep attrs st).1
            (procForest cs (styleStep attrs st).2).1 ::
          (procForest ns (procForest cs (styleStep attrs st).2).2).1,
         (procForest ns (procForest cs (styleStep attrs st).2).2).2) by
      simp [procForest]]
    rw [hstep]
    rw [show (attrs, st).1 = attrs from rfl, show ((attrs, st) : List (Str × AttrVal) × StyleState).2 = st from rfl]
    rw [ih1 st hcs]
    rw [show ((cs, st) : List Node × StyleState).1 = cs from rfl,
      show ((cs, st) : List Node × StyleState).2 = st from rfl]
    rw [ih2 st hns]

lemma process_fst_eq_processOk (parse : Str → List Node) (render : List Node → Str)
    (content out dir0 : Str) :
    (process parse render content out dir0).1 = processOk parse content := by
  unfold process processOk
  cases h1 : findBoundary content with
  | none => rfl
  | some b =>
    dsimp only
    cases h2 : (splitParts b content).find?
        (fun p => containsStr (str "Content-Type: text/html") p) with
    | none => rfl
    | some hp =>
      dsimp only
      cases h3 : findAfterBlank hp with
      | none => rfl
      | some rest =>
        dsimp only
        rcases hps : process_styles (empty_msg (parse (pyStrip (takeBody rest)))) with ⟨soup2, css⟩
        dsimp only
        cases h4 : insertStylesheet css
            (update_references
              (buildMap
                ((resourceResults (pathJoin (dirname out) dir0)
                  (splitParts b content)).map (fun r => r.1)))
              out soup2) with
        | none =>
          have h5 := insertStylesheet_isSome css
            (update_references
              (buildMap
                ((resourceResults (pathJoin (dirname out) dir0)
                  (splitParts b content)).map (fun r => r.1)))
              out soup2)
          rw [h4, hasTag_update_references, hasTag_update_references] at h5
          simpa using h5
        | some s4 =>
          have h5 := insertStylesheet_isSome css
            (update_references
              (buildMap
                ((resourceResults (pathJoin (dirname out) dir0)
                  (splitParts b content)).map (fun r => r.1)))
              out soup2)
          rw [h4, hasTag_update_references, hasTag_update_references] at h5
          simpa using h5


/-! ## First-seen order lemmas (claim C4) -/

lemma firstSeenAux_nil (seen : List Str) : firstSeenAux seen [] = [] := rfl

lemma mem_firstSeenAux (l : List Str) : ∀ (seen : List Str) (x : Str),
    x ∈ firstSeenAux seen l ↔ x ∈ l ∧ x ∉ seen := by
  induction l with
  | nil => intro seen x; simp [firstSeenAux]
  | cons s ss ih =>
    intro seen x
    by_cases hs : s ∈ seen
    · rw [show firstSeenAux seen (s :: ss) = firstSeenAux seen ss by
        simp [firstSeenAux, hs]]
      rw [ih]
      constructor
      · rintro ⟨h1, h2⟩
        exact ⟨List.mem_cons_of_mem _ h1, h2⟩
      · rintro ⟨h1, h2⟩
        rcases List.mem_cons.mp h1 with h3 | h3
        · subst h3; exact absurd hs h2
        · exact ⟨h3, h2⟩
    · rw [show firstSeenAux seen (s :: ss) = s :: firstSeenAux (s :: seen) ss by
        simp [firstSeenAux, hs]]
      constructor
      · intro h1
        rcases List.mem_cons.mp h1 with h3 | h3
        · subst h3; exact ⟨List.mem_cons_self _ _, hs⟩
        · obtain ⟨h4, h5⟩ := (ih (s :: seen) x).mp h3
          exact ⟨List.mem_cons_of_mem _ h4, fun h6 => h5 (List.mem_cons_of_mem _ h6)⟩
      · rintro ⟨h1, h2⟩
        rcases List.mem_cons.mp h1 with h3 | h3
        · subst h3; exact List.mem_cons_self _ _
        · by_cases hxs : x = s
          · subst hxs; exact List.mem_cons_self _ _
          · refine List.mem_cons_of_mem _ ((ih (s :: seen) x).mpr ⟨h3, fun h6 => ?_⟩)
            rcases List.mem_cons.mp h6 with h7 | h7
            · exact hxs h7
            · exact h2 h7

lemma firstSeenAux_congr (l : List Str) : ∀ (s t : List Str),
    (∀ x, x ∈ s ↔ x ∈ t) → firstSeenAux s l = firstSeenAux t l := by
  induction l with
  | nil => intro s t h; rfl
  | cons a l ih =>
    intro s t h
    by_cases ha : a ∈ s
    · rw [show firstSeenAux s (a :: l) = firstSeenAux s l by simp [firstSeenAux, ha],
        show firstSeenAux t (a :: l) = firstSeenAux t l by simp [firstSeenAux, (h a).mp ha]]
      exact ih s t h
    · have hat : a ∉ t := fun hh => ha ((h a).mpr hh)
      rw [show firstSeenAux s (a :: l) = a :: firstSeenAux (a :: s) l by
        simp [firstSeenAux, ha],
        show firstSeenAux t (a :: l) = a :: firstSeenAux (a :: t) l by
        simp [firstSeenAux, hat]]
      congr 1
      apply ih
      intro x
      simp [List.mem_cons, h x]

lemma firstSeenAux_append (l1 : List Str) : ∀ (l2 seen : List Str),
    firstSeenAux seen (l1 ++ l2) =
      firstSeenAux seen l1 ++ firstSeenAux (firstSeenAux seen l1 ++ seen) l2 := by
  induction l1 with
  | nil =>
    intro l2 seen
    simp [firstSeenAux]
  | cons a l1 ih =>
    intro l2 seen
    by_cases ha : a ∈ seen
    · rw [List.cons_append,
        show firstSeenAux seen (a :: (l1 ++ l2)) = firstSeenAux seen (l1 ++ l2) by
          simp [firstSeenAux, ha],
        show firstSeenAux seen (a :: l1) = firstSeenAux seen l1 by
          simp [firstSeenAux, ha],
        ih]
    · rw [List.cons_append,
        show firstSeenAux seen (a :: (l1 ++ l2)) =
            a :: firstSeenAux (a :: seen) (l1 ++ l2) by simp [firstSeenAux, ha],
        show firstSeenAux seen (a :: l1) = a :: firstSeenAux (a :: seen) l1 by
          simp [firstSeenAux, ha],
        ih]
      rw [List.cons_append]
      congr 1
      congr 1
      apply firstSeenAux_congr
      intro x
      simp only [List.mem_append, List.mem_cons]
      tauto


/-! ## Style-dedup invariant lemmas (claim C4) -/

lemma mem_keysOf_of_dictGet (m : List (Str × Str)) (k v : Str)
    (h : dictGet m k = some v) : k ∈ m.map Prod.fst := by
  have h1 := dictGet_some_mem m k v h
  exact List.mem_map_of_mem Prod.fst h1

lemma not_mem_keysOf_of_dictGet_none (m : List (Str × Str)) (k : Str)
    (h : dictGet m k = none) : k ∉ m.map Prod.fst := by
  intro hmem
  obtain ⟨p, hp, hpk⟩ := List.mem_map.mp hmem
  exact (dictGet_eq_none m k).mp h p hp hpk

lemma dictGet_singleton_self (k v : Str) : dictGet [(k, v)] k = some v := by
  unfold dictGet
  rw [List.find?_cons_of_pos _ (by simp)]
  rfl

lemma firstSeenAux_singleton_mem (seen : List Str) (s : Str) (h : s ∈ seen) :
    firstSeenAux seen [s] = [] := by
  simp only [firstSeenAux]
  rw [if_pos h]

lemma firstSeenAux_singleton_not_mem (seen : List Str) (s : Str) (h : s ∉ seen) :
    firstSeenAux seen [s] = [s] := by
  simp only [firstSeenAux]
  rw [if_neg h]

lemma styleHead_nil_of_not_has (attrs : List (Str × AttrVal))
    (ha : hasAttr attrs (str "style") = false) : styleHead attrs = [] := by
  unfold styleHead
  rw [ha]
  rfl

lemma styleHead_nil_of_empty (attrs : List (Str × AttrVal))
    (he : (pyStrip (attrStr attrs (str "style"))).isEmpty = true) :
    styleHead attrs = [] := by
  unfold styleHead
  rw [he]
  simp

lemma styleHead_singleton (attrs : List (Str × AttrVal))
    (ha : hasAttr attrs (str "style") = true)
    (he : (pyStrip (attrStr attrs (str "style"))).isEmpty = false) :
    styleHead attrs = [pyStrip (attrStr attrs (str "style"))] := by
  unfold styleHead
  rw [ha, he]
  rfl

lemma styleStep_inv (attrs : List (Str × AttrVal)) (st : StyleState) (h : StInv st) :
    StInv (styleStep attrs st).2 ∧
    keysOf (styleStep attrs st).2 =
      keysOf st ++ firstSeenAux (keysOf st) (styleHead attrs) ∧
    (styleStep attrs st).2.assigned.map Prod.fst =
      st.assigned.map Prod.fst ++ styleHead attrs := by
  by_cases ha : hasAttr attrs (str "style") = true
  · by_cases he : (pyStrip (attrStr attrs (str "style"))).isEmpty = true
    · have hsh := styleHead_nil_of_empty attrs he
      have hstep : styleStep attrs st = (attrs, st) := by
        unfold styleStep
        rw [if_pos ha]
        dsimp only
        rw [if_pos he]
      rw [hstep, hsh]
      exact ⟨h, by simp [firstSeenAux], by simp⟩
    · have hef : (pyStrip (attrStr attrs (str "style"))).isEmpty = false := by
        cases hx : (pyStrip (attrStr attrs (str "style"))).isEmpty
        · rfl
        · exact absurd hx he
      have hsh := styleHead_singleton attrs ha hef
      rw [hsh]
      cases hdg : dictGet st.style_map (pyStrip (attrStr attrs (str "style"))) with
      | some c =>
        have hstep : styleStep attrs st =
            (delAttr (setAttr attrs (str "class")
                (.l (classList attrs ++ [c]))) (str "style"),
             { st with assigned :=
                st.assigned ++ [(pyStrip (attrStr attrs (str "style")), c)] }) := by
          unfold styleStep
          rw [if_pos ha]
          dsimp only
          rw [if_neg he, hdg]
          dsimp only
          rw [hdg]
          rfl
        rw [hstep]
        have hmem : pyStrip (attrStr attrs (str "style")) ∈ keysOf st :=
          mem_keysOf_of_dictGet _ _ _ hdg
        refine ⟨⟨h.counter_eq, h.names, h.nodupKeys, ?_⟩, ?_, ?_⟩
        · intro p hp
          rcases List.mem_append.mp hp with h1 | h1
          · exact h.assignedOk p h1
          · simp at h1
            subst h1
            exact hdg
        · rw [firstSeenAux_singleton_mem _ _ hmem]
          simp [keysOf]
        · simp
      | none =>
        have hcls : dictGet
            (st.style_map ++
              [(pyStrip (attrStr attrs (str "style")), styleClassName st.counter)])
            (pyStrip (attrStr attrs (str "style"))) =
            some (styleClassName st.counter) := by
          rw [dictGet_append, hdg, dictGet_singleton_self]
          rfl
        have hstep : styleStep attrs st =
            (delAttr (setAttr attrs (str "class")
                (.l (classList attrs ++ [styleClassName st.counter]))) (str "style"),
             { style_map := st.style_map ++
                 [(pyStrip (attrStr attrs (str "style")), styleClassName st.counter)],
               css_rules := st.css_rules ++
                 [cssRule (styleClassName st.counter)
                   (pyStrip (attrStr attrs (str "style")))],
               counter := st.counter + 1,
               assigned := st.assigned ++
                 [(pyStrip (attrStr attrs (str "style")), styleClassName st.counter)] }) := by
          unfold styleStep
          rw [if_pos ha]
          dsimp only
          rw [if_neg he, hdg]
          dsimp only
          rw [hcls]
          rfl
        rw [hstep]
        have hnmem : pyStrip (attrStr attrs (str "style")) ∉ keysOf st :=
          not_mem_keysOf_of_dictGet_none _ _ hdg
        refine ⟨⟨?_, ?_, ?_, ?_⟩, ?_, ?_⟩
        · simp [h.counter_eq]
        · rw [List.map_append, h.names, List.length_append, h.counter_eq]
          simp [List.range_succ]
        · rw [List.map_append, List.nodup_append]
          refine ⟨h.nodupKeys, by simp, ?_⟩
          intro x hx
          simp only [List.map_cons, List.map_nil, List.mem_singleton]
          intro hxx
          subst hxx
          exact hnmem hx
        · intro p hp
          rcases List.mem_append.mp hp with h1 | h1
          · have h2 := h.assignedOk p h1
            rw [dictGet_append, h2]
            rfl
          · simp at h1
            subst h1
            exact hcls
        · rw [firstSeenAux_singleton_not_mem _ _ hnmem]
          simp [keysOf]
        · simp
  · have haf : hasAttr attrs (str "style") = false := by
      cases hx : hasAttr attrs (str "style")
      · rfl
      · exact absurd hx ha
    have hsh := styleHead_nil_of_not_has attrs haf
    have hstep : styleStep attrs st = (attrs, st) := by
      unfold styleStep
      rw [if_neg ha]
    rw [hstep, hsh]
    exact ⟨h, by simp [firstSeenAux], by simp⟩

lemma procForest_inv (l : List Node) (st : StyleState) : StInv st →
    StInv (procForest l st).2 ∧
    keysOf (procForest l st).2 = keysOf st ++ firstSeenAux (keysOf st) (nodeStyleList l) ∧
    (procForest l st).2.assigned.map Prod.fst =
      st.assigned.map Prod.fst ++ nodeStyleList l := by
  induction l, st using procForest.induct with
  | case1 st =>
    intro h
    rw [show procForest ([] : List Node) st = ([], st) by simp [procForest]]
    refine ⟨h, ?_, ?_⟩ <;> simp [nodeStyleList, firstSeenAux]
  | case2 t ns st ns1 st1 heq ih =>
    intro h
    have hpf : procForest (Node.txt t :: ns) st = (Node.txt t :: ns1, st1) := by
      simp [procForest, heq]
    rw [hpf]
    rw [heq] at ih
    obtain ⟨i1, i2, i3⟩ := ih h
    rw [show nodeStyleList (Node.txt t :: ns) = nodeStyleList ns by simp [nodeStyleList]]
    exact ⟨i1, i2, i3⟩
  | case3 tag attrs cs ns st attrs1 st1 hstep cs1 st2 hcs ns1 st3 hns ih1 ih2 =>
    intro h
    have hpf : procForest (Node.elem tag attrs cs :: ns) st =
        (Node.elem tag attrs1 cs1 :: ns1, st3) := by
      simp [procForest, hstep, hcs, hns]
    rw [hpf]
    obtain ⟨s1, s2, s3⟩ := styleStep_inv attrs st h
    rw [hstep] at s1 s2 s3
    obtain ⟨c1, c2, c3⟩ := ih1 s1
    rw [hcs] at c1 c2 c3
    obtain ⟨n1, n2, n3⟩ := ih2 c1
    rw [hns] at n1 n2 n3
    rw [show nodeStyleList (Node.elem tag attrs cs :: ns) =
        styleHead attrs ++ nodeStyleList cs ++ nodeStyleList ns by simp [nodeStyleList]]
    refine ⟨n1, ?_, ?_⟩
    · show keysOf st3 = _
      rw [n2, c2, s2]
      rw [firstSeenAux_append (styleHead attrs ++ nodeStyleList cs) (nodeStyleList ns)
        (keysOf st)]
      rw [firstSeenAux_append (styleHead attrs) (nodeStyleList cs) (keysOf st)]
      have hG1 : firstSeenAux
          (firstSeenAux (keysOf st) (styleHead attrs) ++ keysOf st) (nodeStyleList cs) =
          firstSeenAux
          (keysOf st ++ firstSeenAux (keysOf st) (styleHead attrs)) (nodeStyleList cs) := by
        apply firstSeenAux_congr
        intro x
        simp only [List.mem_append]
        tauto
      rw [hG1]
      have hH : firstSeenAux
          ((firstSeenAux (keysOf st) (styleHead attrs) ++
            firstSeenAux (keysOf st ++ firstSeenAux (keysOf st) (styleHead attrs))
              (nodeStyleList cs)) ++ keysOf st) (nodeStyleList ns) =
          firstSeenAux
          ((keysOf st ++ firstSeenAux (keysOf st) (styleHead attrs)) ++
            firstSeenAux (keysOf st ++ firstSeenAux (keysOf st) (styleHead attrs))
              (nodeStyleList cs)) (nodeStyleList ns) := by
        apply firstSeenAux_congr
        intro x
        simp only [List.mem_append]
        tauto
      rw [hH]
      simp [List.append_assoc]
    · show st3.assigned.map Prod.fst = _
      rw [n3, c3, s3]
      simp [List.append_assoc]


/-! ### Claim theorems -/

/-- Claim C1: every `save_resource` call writes a file named
`{baseName}.{extension}` inside the resource directory — baseName the final
path segment of the content location with any existing extension removed,
extension the fixed-map value for the content type (jpeg, png, gif) or else
the final plus-separated token of its subtype — and the bytes written are
the base64-decoding of the body exactly when the transfer encoding equals
`base64`, otherwise the body's UTF-8 encoding (a failed decode writes
nothing and returns a failure). -/
theorem c1_resource_extraction (cl ct data enc dir : Str) :
    save_resource cl ct data enc dir =
      match (if enc = str "base64" then b64decode data else some (encodeUtf8 data)) with
      | some bs =>
        (some (cl, pathJoin dir (specFileName cl ct)),
         [FsOp.mkdirs dir, FsOp.write (pathJoin dir (specFileName cl ct)) bs])
      | none => (none, [FsOp.mkdirs dir]) := by
  have hfn : specFileName cl ct =
      splitextRoot (basename cl) ++ str "." ++
        ((dictGet CONTENT_TYPE_MAP ct).getD (lastTok '+' (lastTok '/' ct))) := by
    unfold specFileName specBaseName
    rw [specFinalSegment_eq_basename, specDropExt_eq_splitextRoot, specExt_eq]
  rw [hfn]
  unfold save_resource contentBytes
  rfl

/-- Claim C2: when no boundary declaration is found, or no part containing a
`text/html` content type is found, or the HTML body cannot be located in the
chosen part, `process` fails (returns `false`, after printing the caught
error) and performs no filesystem effects: no output file and no resource
directory. -/
theorem c2_failure_no_output (parse : Str → List Node) (render : List Node → Str)
    (content out dir0 : Str) :
    (findBoundary content = none →
      process parse render content out dir0 = (false, [])) ∧
    (htmlPartSel content = none →
      process parse render content out dir0 = (false, [])) ∧
    (∀ hp, htmlPartSel content = some hp → findAfterBlank hp = none →
      process parse render content out dir0 = (false, [])) := by
  refine ⟨?_, ?_, ?_⟩
  · intro h
    unfold process
    rw [h]
  · intro h
    unfold htmlPartSel at h
    unfold process
    cases h1 : findBoundary content with
    | none => rfl
    | some b =>
      rw [h1] at h
      simp only [Option.bind_eq_bind, Option.some_bind] at h
      dsimp only
      rw [h]
  · intro hp h1 h2
    unfold htmlPartSel at h1
    unfold process
    cases h3 : findBoundary content with
    | none => simp [h3] at h1
    | some b =>
      rw [h3] at h1
      simp only [Option.bind_eq_bind, Option.some_bind] at h1
      dsimp only
      rw [h1]
      dsimp only
      rw [h2]

theorem c2_failure_no_output_w :
    process (fun _ => []) (fun _ => []) (str "hello") (str "o.html") (str "images") =
        (false, []) ∧
    process (fun _ => []) (fun _ => []) wNoHtml (str "o.html") (str "images") =
        (false, []) ∧
    process (fun _ => []) (fun _ => []) wNoBlank (str "o.html") (str "images") =
        (false, []) :=
  ⟨(c2_failure_no_output _ _ _ _ _).1 rfl,
   (c2_failure_no_output _ _ _ _ _).2.1 rfl,
   (c2_failure_no_output _ _ _ _ _).2.2 (str "Content-Type: text/html; x") rfl rfl⟩

/-- Claim C3 (counterexample): `exC3` is a valid document with a declared
boundary and exactly one `text/html` part, yet the extracted body is not
the part's whole remaining text trimmed — the code stops at the first
newline-dash-dash sequence inside the body. -/
theorem c3_splitter_counterexample :
    countHtmlParts exC3 = 1 ∧
    (extractedBody exC3).isSome = true ∧
    extractedBody exC3 ≠ specBody exC3 := by
  refine ⟨by decide, by decide, by decide⟩

/-- Claim C3 (amended): the extracted HTML body is the text following the
first blank-line separator of the chosen part, up to but not including the
first subsequent newline followed by two hyphens (any line starting with
`--`, not only boundary markers) or the end of input, with surrounding
whitespace trimmed; in particular, when that remainder contains no such
sequence the part's body is returned unchanged up to trimming. -/
theorem c3_splitter_amended (content hp r : Str)
    (h1 : htmlPartSel content = some hp) (h2 : findAfterBlank hp = some r) :
    extractedBody content = some (pyStrip (takeBody r)) ∧
    (containsStr (str "\n--") r = false → extractedBody content = some (pyStrip r)) := by
  have hb : extractedBody content = some (pyStrip (takeBody r)) := by
    unfold extractedBody
    rw [h1]
    simp only [Option.bind_eq_bind, Option.some_bind]
    unfold htmlBodyOf
    rw [h2]
    rfl
  refine ⟨hb, fun h3 => ?_⟩
  rw [hb, pyStrip_takeBody r h3]

theorem c3_splitter_amended_w :
    extractedBody wContent = some (pyStrip wRest) :=
  (c3_splitter_amended wContent wHtmlPart wRest rfl rfl).2 rfl

/-- Claim C6: a resource whose base64 body fails to decode makes
`save_resource` return a failure (`none`, with only the directory-creation
effect) instead of raising; a failed task contributes nothing to the
resource map; an element whose designated attribute misses the resource map
is left completely untouched; and the pipeline's overall outcome equals
`processOk`, which is computed without consulting any resource-extraction
result, so no resource failure can abort the conversion. -/
theorem c6_resource_failure_isolated
    (cl ct data dir : Str) (rs : List (Option (Str × Str)))
    (m : List (Str × Str)) (out tag : Str) (attrs : List (Str × AttrVal))
    (parse : Str → List Node) (render : List Node → Str) (content out2 dir0 : Str) :
    (b64decode data = none →
      save_resource cl ct data (str "base64") dir = (none, [FsOp.mkdirs dir])) ∧
    buildMap (none :: rs) = buildMap rs ∧
    (refHit m attrs tag = none → update_tag_attrs m out tag attrs = attrs) ∧
    (process parse render content out2 dir0).1 = processOk parse content := by
  refine ⟨?_, ?_, ?_, process_fst_eq_processOk parse render content out2 dir0⟩
  · intro h
    unfold save_resource contentBytes
    rw [if_pos rfl, h]
  · unfold buildMap
    rfl
  · intro h
    unfold update_tag_attrs
    split
    · rw [h]
    · rfl

theorem c6_resource_failure_isolated_w :
    save_resource (str "a.jpg") (str "image/jpeg") (str "A") (str "base64") (str "img") =
      (none, [FsOp.mkdirs (str "img")]) ∧
    update_tag_attrs [] (str "o.html") (str "img") [] = [] :=
  ⟨(c6_resource_failure_isolated (str "a.jpg") (str "image/jpeg") (str "A") (str "img")
      [] [] (str "o.html") (str "img") [] (fun _ => []) (fun _ => [])
      (str "x") (str "o.html") (str "d")).1 rfl,
   (c6_resource_failure_isolated (str "a.jpg") (str "image/jpeg") (str "A") (str "img")
      [] [] (str "o.html") (str "img") [] (fun _ => []) (fun _ => [])
      (str "x") (str "o.html") (str "d")).2.2.1 rfl⟩

/-- Claim C7: the header parser maps each colon-bearing line's lower-cased
trimmed key to its trimmed value, ignores lines without a colon, yields the
empty mapping on empty input, lets the last occurrence of a
case-insensitively equal key win, and is deterministic (parsing the same
block twice gives the same mapping). -/
theorem c7_header_parsing (s k : Str) :
    dictGet (parse_headers s) k =
      ((headerEntries s).reverse.find? (fun p => decide (p.1 = k))).map (fun p => p.2) ∧
    parse_headers [] = [] ∧
    parse_headers s = parse_headers s := by
  refine ⟨?_, rfl, rfl⟩
  rw [parse_headers_eq_fold, dictGet_foldl_insert]
  cases h : (headerEntries s).reverse.find? (fun p => decide (p.1 = k)) with
  | none => rfl
  | some p => rfl

/-- Claim C10: the header parser splits a line only at its first colon, so
a value containing further colons (a `cid:` reference, a URL) is preserved
in full as the trimmed remainder of the line after the first colon. -/
theorem c10_first_colon_split (k v : Str) (h1 : ':' ∉ k) (h2 : '\n' ∉ k) (h3 : '\n' ∉ v) :
    splitOnce ':' (k ++ ':' :: v) = some (k, v) ∧
    parse_headers (k ++ ':' :: v) = [(pyLower (pyStrip k), pyStrip v)] := by
  have hsp := splitOnce_prepend ':' k v h1
  refine ⟨hsp, ?_⟩
  have hnl : '\n' ∉ (k ++ ':' :: v) := by
    intro hmem
    rcases List.mem_append.mp hmem with h4 | h4
    · exact h2 h4
    · rcases List.mem_cons.mp h4 with h5 | h5
      · exact absurd h5 (by decide)
      · exact h3 h5
  unfold parse_headers
  rw [splitChar_not_mem '\n' _ hnl, List.foldl_cons, hsp]
  dsimp only
  rw [List.foldl_nil]
  unfold dictInsert
  rw [if_neg (by simp)]
  rfl

theorem c10_first_colon_split_w :
    parse_headers (str "Content-Location" ++ ':' :: str " cid:a.jpg") =
      [(pyLower (pyStrip (str "Content-Location")), pyStrip (str " cid:a.jpg"))] :=
  (c10_first_colon_split (str "Content-Location") (str " cid:a.jpg")
    (by decide) (by decide) (by decide)).2

/-- Claim C5: the reference-rewrite pass satisfies the frame condition
`frameResp`: it preserves the document's shape, text nodes and tag names,
touches no element other than `img`, `link` and `script` ones whose
designated attribute value hits the resource map with a truthy path, and on
those elements preserves every attribute entry other than the designated
one — in particular, references whose resource extraction failed (absent
from the map) keep their original values. -/
theorem c5_reference_rewrite_frame (m : List (Str × Str)) (out : Str) (soup : List Node) :
    frameResp m soup (update_references m out soup) = true :=
  frameResp_update m out soup

/-- Claim C8: applied to a document with no non-blank inline style
attributes, the style-dedup pass creates no classes, modifies nothing and
returns the empty stylesheet: the run is the identity on both the tree and
the style state. -/
theorem c8_style_dedup_stable (soup : List Node) (h : nodeStyleList soup = []) :
    process_styles soup = (soup, []) ∧
    procForest soup initStyleState = (soup, initStyleState) := by
  have h2 := procForest_id_of_no_styles soup initStyleState h
  refine ⟨?_, h2⟩
  unfold process_styles
  rw [h2]
  rfl

theorem c8_style_dedup_stable_w : process_styles wSoup8 = (wSoup8, []) :=
  (c8_style_dedup_stable wSoup8 (by simp [nodeStyleList, wSoup8]; decide)).1

/-- Claim C9: with a non-empty stylesheet, the injection step appends the
style element to the first `head` element when one exists; when no `head`
exists but an `html` root does, a fresh `head` holding the style element is
inserted as the first child of that `html` element. -/
theorem c9_stylesheet_injection (css : Str) (soup : List Node) (h : css ≠ []) :
    (hasTag (str "head") soup = true →
      ∃ s2, insertStylesheet css soup = some s2 ∧
        firstTagChildren (str "head") s2 =
          (firstTagChildren (str "head") soup).map (fun cs => cs ++ [styleTag css])) ∧
    (hasTag (str "head") soup = false → hasTag (str "html") soup = true →
      ∃ s2, insertStylesheet css soup = some s2 ∧
        firstTagChildren (str "html") s2 =
          (firstTagChildren (str "html") soup).map
            (fun cs => Node.elem (str "head") [] [styleTag css] :: cs)) := by
  have hcf : css.isEmpty = false := by
    cases css with
    | nil => exact absurd rfl h
    | cons a l => rfl
  constructor
  · intro hh
    have hsome : (mapFirstTag (str "head") (fun cs => cs ++ [styleTag css]) soup).isSome
        = true := by
      rw [mapFirstTag_isSome]; exact hh
    cases h1 : mapFirstTag (str "head") (fun cs => cs ++ [styleTag css]) soup with
    | none => rw [h1] at hsome; cases hsome
    | some s2 =>
      refine ⟨s2, ?_, firstTagChildren_mapFirstTag _ _ _ _ h1⟩
      unfold insertStylesheet
      rw [if_neg (by rw [hcf]; exact Bool.false_ne_true), h1]
  · intro hh1 hh2
    have hnone : mapFirstTag (str "head") (fun cs => cs ++ [styleTag css]) soup = none := by
      have h4 := mapFirstTag_isSome (str "head") (fun cs => cs ++ [styleTag css]) soup
      rw [hh1] at h4
      cases h5 : mapFirstTag (str "head") (fun cs => cs ++ [styleTag css]) soup with
      | none => rfl
      | some x => rw [h5] at h4; cases h4
    have hsome : (mapFirstTag (str "html")
        (fun cs => Node.elem (str "head") [] [styleTag css] :: cs) soup).isSome = true := by
      rw [mapFirstTag_isSome]; exact hh2
    cases h1 : mapFirstTag (str "html")
        (fun cs => Node.elem (str "head") [] [styleTag css] :: cs) soup with
    | none => rw [h1] at hsome; cases hsome
    | some s2 =>
      refine ⟨s2, ?_, firstTagChildren_mapFirstTag _ _ _ _ h1⟩
      unfold insertStylesheet
      rw [if_neg (by rw [hcf]; exact Bool.false_ne_true), hnone]
      dsimp only
      exact h1

theorem c9_stylesheet_injection_w :
    ∃ s2, insertStylesheet (str "x") wSoup9 = some s2 ∧
      firstTagChildren (str "html") s2 =
        (firstTagChildren (str "html") wSoup9).map
          (fun cs => Node.elem (str "head") [] [styleTag (str "x")] :: cs) :=
  (c9_stylesheet_injection (str "x") wSoup9 (by decide)).2
    (by simp [hasTag, wSoup9]; decide) (by simp [hasTag, wSoup9])

lemma procForest_nil2 (st : StyleState) : procForest [] st = ([], st) := by
  simp [procForest]
lemma procForest_elem2 (tag : Str) (attrs : List (Str × AttrVal)) (cs ns : List Node)
    (st : StyleState) :
    procForest (Node.elem tag attrs cs :: ns) st =
      (Node.elem tag (styleStep attrs st).1
          (procForest cs (styleStep attrs st).2).1 ::
        (procForest ns (procForest cs (styleStep attrs st).2).2).1,
       (procForest ns (procForest cs (styleStep attrs st).2).2).2) := by
  simp [procForest]

lemma step_b : procForest
      [Node.elem (str "r") [(str "style", AttrVal.s (str "a"))] [],
       Node.elem (str "t") [(str "style", AttrVal.s (str "b"))] []]
      (⟨[(str "a", str "i-style-1")], [cssRule (str "i-style-1") (str "a")], 2,
        [(str "a", str "i-style-1")]⟩ : StyleState)
      = (Node.elem (str "r") [(str "class", AttrVal.l [str "i-style-1"])] [] ::
          [Node.elem (str "t") [(str "class", AttrVal.l [str "i-style-2"])] []],
         ⟨[(str "a", str "i-style-1"), (str "b", str "i-style-2")],
          [cssRule (str "i-style-1") (str "a"), cssRule (str "i-style-2") (str "b")], 3,
          [(str "a", str "i-style-1"), (str "a", str "i-style-1"),
           (str "b", str "i-style-2")]⟩) := by
  have e2 : styleStep [(str "style", AttrVal.s (str "a"))]
      (⟨[(str "a", str "i-style-1")], [cssRule (str "i-style-1") (str "a")], 2,
        [(str "a", str "i-style-1")]⟩ : StyleState) =
      ([(str "class", AttrVal.l [str "i-style-1"])],
       ⟨[(str "a", str "i-style-1")], [cssRule (str "i-style-1") (str "a")], 2,
        [(str "a", str "i-style-1"), (str "a", str "i-style-1")]⟩) := by decide
  have e3 : styleStep [(str "style", AttrVal.s (str "b"))]
      (⟨[(str "a", str "i-style-1")], [cssRule (str "i-style-1") (str "a")], 2,
        [(str "a", str "i-style-1"), (str "a", str "i-style-1")]⟩ : StyleState) =
      ([(str "class", AttrVal.l [str "i-style-2"])],
       ⟨[(str "a", str "i-style-1"), (str "b", str "i-style-2")],
        [cssRule (str "i-style-1") (str "a"), cssRule (str "i-style-2") (str "b")], 3,
        [(str "a", str "i-style-1"), (str "a", str "i-style-1"),
         (str "b", str "i-style-2")]⟩) := by decide
  have h3 : procForest [Node.elem (str "t") [(str "style", AttrVal.s (str "b"))] []]
      (⟨[(str "a", str "i-style-1")], [cssRule (str "i-style-1") (str "a")], 2,
        [(str "a", str "i-style-1"), (str "a", str "i-style-1")]⟩ : StyleState)
      = ([Node.elem (str "t") [(str "class", AttrVal.l [str "i-style-2"])] []],
         ⟨[(str "a", str "i-style-1"), (str "b", str "i-style-2")],
          [cssRule (str "i-style-1") (str "a"), cssRule (str "i-style-2") (str "b")], 3,
          [(str "a", str "i-style-1"), (str "a", str "i-style-1"),
           (str "b", str "i-style-2")]⟩) := by
    rw [procForest_elem2, e3]
    dsimp only
    rw [procForest_nil2, procForest_nil2]
  rw [procForest_elem2, e2]
  dsimp only
  rw [procForest_nil2]
  dsimp only
  rw [h3]



lemma full_eval : procForest wSoup4 initStyleState
    = ([Node.elem (str "q") [(str "class", AttrVal.l [str "i-style-1"])] [],
        Node.elem (str "r") [(str "class", AttrVal.l [str "i-style-1"])] [],
        Node.elem (str "t") [(str "class", AttrVal.l [str "i-style-2"])] []],
       ⟨[(str "a", str "i-style-1"), (str "b", str "i-style-2")],
        [cssRule (str "i-style-1") (str "a"), cssRule (str "i-style-2") (str "b")], 3,
        [(str "a", str "i-style-1"), (str "a", str "i-style-1"),
         (str "b", str "i-style-2")]⟩) := by
  have e1 : styleStep [(str "style", AttrVal.s (str "a"))] initStyleState =
      ([(str "class", AttrVal.l [str "i-style-1"])],
       ⟨[(str "a", str "i-style-1")], [cssRule (str "i-style-1") (str "a")], 2,
        [(str "a", str "i-style-1")]⟩) := by decide
  unfold wSoup4
  rw [procForest_elem2, e1]
  dsimp only
  rw [procForest_nil2]
  dsimp only
  rw [step_b]



lemma styleRun_assigned_of (soup : List Node) (p : List Node × StyleState)
    (h : procForest soup initStyleState = p) :
    (styleRun soup).assigned = p.2.assigned := by
  rw [styleRun, h]

lemma styleRun_wSoup4_assigned : (styleRun wSoup4).assigned =
    [(str "a", str "i-style-1"), (str "a", str "i-style-1"), (str "b", str "i-style-2")] :=
  styleRun_assigned_of wSoup4 _ full_eval


/-- Claim C4: within one run of the style-dedup pass, any two processed
elements with byte-identical (stripped) inline style strings receive the
same generated class name, elements with different style strings never
share a class name, every processed element's class is the one its style
maps to in the final style map, the processed styles are exactly the
document's inline styles in order, the map's keys are those styles in
first-seen order, and the class names are `i-style-N` with `N` assigned in
first-seen order starting from 1. -/
theorem c4_style_dedup (soup : List Node) :
    (∀ p, p ∈ (styleRun soup).assigned → ∀ q, q ∈ (styleRun soup).assigned →
      (p.2 = q.2 ↔ p.1 = q.1)) ∧
    (∀ p, p ∈ (styleRun soup).assigned →
      dictGet (styleRun soup).style_map p.1 = some p.2) ∧
    (styleRun soup).assigned.map Prod.fst = nodeStyleList soup ∧
    (styleRun soup).style_map.map Prod.fst = firstSeenAux [] (nodeStyleList soup) ∧
    (styleRun soup).style_map.map Prod.snd =
      (List.range (styleRun soup).style_map.length).map (fun i => styleClassName (i + 1)) := by
  have hinit : StInv initStyleState :=
    ⟨rfl, rfl, List.nodup_nil, fun p hp => absurd hp (List.not_mem_nil p)⟩
  obtain ⟨h1, h2, h3⟩ := procForest_inv soup initStyleState hinit
  have hrun : styleRun soup = (procForest soup initStyleState).2 := rfl
  have hvnodup : ((styleRun soup).style_map.map Prod.snd).Nodup := by
    rw [hrun, h1.names]
    apply List.Nodup.map
    · intro a b hab
      have := styleClassName_inj (a + 1) (b + 1) hab
      omega
    · exact List.nodup_range _
  refine ⟨?_, ?_, ?_, ?_, ?_⟩
  · intro p hp q hq
    constructor
    · intro hpq
      have hp2 := h1.assignedOk p (by rwa [hrun] at hp)
      have hq2 := h1.assignedOk q (by rwa [hrun] at hq)
      have hpmem := dictGet_some_mem _ _ _ hp2
      have hqmem := dictGet_some_mem _ _ _ hq2
      have heq := List.inj_on_of_nodup_map (by rwa [hrun] at hvnodup) hpmem hqmem
        (by simpa using hpq)
      simpa using congrArg Prod.fst heq
    · intro hpq
      have hp2 := h1.assignedOk p (by rwa [hrun] at hp)
      have hq2 := h1.assignedOk q (by rwa [hrun] at hq)
      rw [hpq] at hp2
      rw [hp2] at hq2
      exact Option.some.inj hq2
  · intro p hp
    rw [hrun]
    exact h1.assignedOk p (by rwa [hrun] at hp)
  · rw [hrun]
    simpa using h3
  · rw [hrun]
    have hk : keysOf (procForest soup initStyleState).2 =
        (procForest soup initStyleState).2.style_map.map Prod.fst := rfl
    rw [← hk, h2]
    rfl
  · rw [hrun]
    exact h1.names


theorem c4_style_dedup_w :
    dictGet (styleRun wSoup4).style_map (str "a") = some (str "i-style-1") ∧
    ((str "i-style-1" : Str) = str "i-style-2" ↔ (str "a" : Str) = str "b") := by
  have hm1 : ((str "a", str "i-style-1") : Str × Str) ∈ (styleRun wSoup4).assigned := by
    rw [styleRun_wSoup4_assigned]
    decide
  have hm2 : ((str "b", str "i-style-2") : Str × Str) ∈ (styleRun wSoup4).assigned := by
    rw [styleRun_wSoup4_assigned]
    decide
  have h := c4_style_dedup wSoup4
  exact ⟨h.2.1 (str "a", str "i-style-1") hm1,
         h.1 (str "a", str "i-style-1") hm1 (str "b", str "i-style-2") hm2⟩

end Mht
